import Mathlib

/-!
# Online least-squares fitting: a shallow embedding of `Source.cpp`

The source works on `std::array<float, N>` values.  Here every array is a total
function on `ℕ` of which the first `N` entries are the array (`TVector`), every
array of arrays a function of two indices (`TMatrix`), and `float` is taken in
exact arithmetic as `ℚ`.  Loops are kept as loops (`forUpTo`, `forDownFrom`)
over an explicit state, writes are function updates (`setVec`, `setMat`), and
objects passed by non-const reference are passed in and returned.  A local
declared without an initialiser starts as `uninitMatrix`.
-/

namespace OnlineLeastSquaresFitting

/-- The array type `TVector<N>`; the size is carried by the code that uses it. -/
abbrev TVector := ℕ → ℚ

/-- The array type `TMatrix<M, N>` (and `TSquareMatrix<N>`), indexed row first. -/
abbrev TMatrix := ℕ → TVector

/-- A data point `TVector<2>`: entry 0 is x, entry 1 is y. -/
abbrev TDataPoint := TVector

/-- The array type `TDataPointList<NUMDATAPOINTS>`. -/
abbrev TDataPointList := ℕ → TDataPoint

/-- The loop `for (size_t i = 0; i < n; ++i) body`, as a state transformer. -/
def forUpTo {σ : Type} : ℕ → (ℕ → σ → σ) → σ → σ
  | 0, _, s => s
  | n + 1, body, s => body n (forUpTo n body s)

/-- The loop `for (size_t i = lo; i < hi; ++i) body`, as a state transformer. -/
def forFromTo {σ : Type} (lo hi : ℕ) (body : ℕ → σ → σ) (s : σ) : σ :=
  forUpTo (hi - lo) (fun k => body (lo + k)) s

/-- The loop `for (size_t i = n; i > 0; --i) body`, as a state transformer. -/
def forDownFrom {σ : Type} : ℕ → (ℕ → σ → σ) → σ → σ
  | 0, _, s => s
  | n + 1, body, s => forDownFrom n body (body (n + 1) s)

/-- The assignment `v[i] = x`. -/
def setVec (v : TVector) (i : ℕ) (x : ℚ) : TVector :=
  fun a => if a = i then x else v a

/-- The assignment `m[i][j] = x`. -/
def setMat (m : TMatrix) (i j : ℕ) (x : ℚ) : TMatrix :=
  fun a => if a = i then setVec (m i) j x else m a

/-- Contents given to a local matrix that the source declares without an initialiser. -/
def uninitMatrix : TMatrix := fun _ _ => 0

/-- Source lines 20-27. -/
def DotProduct (N : ℕ) (A B : TVector) : ℚ :=
  forUpTo N (fun i ret => ret + A i * B i) 0

/-- Source lines 30-50.  The outer state is `(out, destI)`, the inner one `(out, destJ)`. -/
def MinorMatrix (N : ℕ) (inp out : TMatrix) (excludeI excludeJ : ℕ) : TMatrix :=
  (forUpTo N (fun i (st : TMatrix × ℕ) =>
    if i ≠ excludeI then
      ((forUpTo N (fun j (st2 : TMatrix × ℕ) =>
        if j ≠ excludeJ then
          (setMat st2.1 st.2 st2.2 (inp i j), st2.2 + 1)
        else st2) (st.1, 0)).1, st.2 + 1)
    else st) (out, 0)).1

/-- Source lines 53-59. -/
def TransposeMatrix (M N : ℕ) (inp result : TMatrix) : TMatrix :=
  forUpTo M (fun j res => forUpTo N (fun k res2 => setMat res2 k j (inp j k)) res) result

/-- Source lines 62-85: the template `Determinant<N>` with its specialisation at `N = 2`.
The loop state is `(determinant, minor)`.  The template cannot be instantiated for
`N < 2` (its recursion never meets the specialisation); those two cases are given 0. -/
def Determinant : ℕ → TMatrix → ℚ
  | 0, _ => 0
  | 1, _ => 0
  | 2, inp => inp 0 0 * inp 1 1 - inp 0 1 * inp 1 0
  | n + 3, inp =>
    (forUpTo (n + 3) (fun j (st : ℚ × TMatrix) =>
      let minor := MinorMatrix (n + 3) inp st.2 0 j
      let minorDeterminant := Determinant (n + 2) minor
      let minorDeterminant :=
        if j % 2 = 1 then minorDeterminant * (-1) else minorDeterminant
      (st.1 + inp 0 j * minorDeterminant, minor)) (0, uninitMatrix)).1

/-- Source lines 95-108 of the generic `InvertMatrix<N>`: the loop that fills the
cofactor matrix and accumulates the determinant.  The state is
`(determinant, cofactors, minor)`. -/
def cofactorLoop (N : ℕ) (inp : TMatrix) : ℚ × TMatrix × TMatrix :=
  forUpTo N (fun i st =>
    forUpTo N (fun j (st2 : ℚ × TMatrix × TMatrix) =>
      let minor := MinorMatrix N inp st2.2.2 i j
      let cofactors := setMat st2.2.1 i j (Determinant (N - 1) minor)
      let cofactors :=
        if (i + j) % 2 = 1 then setMat cofactors i j (cofactors i j * (-1)) else cofactors
      let determinant := if i = 0 then st2.1 + inp i j * cofactors i j else st2.1
      (determinant, cofactors, minor)) st) (0, uninitMatrix, uninitMatrix)

/-- Source lines 88-139: `InvertMatrix<N>` with its specialisation at `N = 2`.
Returns the success flag and the contents of `out` after the call. -/
def InvertMatrix (N : ℕ) (inp out : TMatrix) : Bool × TMatrix :=
  if N = 2 then
    let determinant := Determinant 2 inp
    if determinant = 0 then (false, out)
    else
      let oneOverDeterminant := 1 / determinant
      let out := setMat out 0 0 (inp 1 1 * oneOverDeterminant)
      let out := setMat out 0 1 (-inp 0 1 * oneOverDeterminant)
      let out := setMat out 1 0 (-inp 1 0 * oneOverDeterminant)
      let out := setMat out 1 1 (inp 0 0 * oneOverDeterminant)
      (true, out)
  else
    let st := cofactorLoop N inp
    if st.1 = 0 then (false, out)
    else
      let out := TransposeMatrix N N st.2.1 out
      let oneOverDeterminant := 1 / st.1
      let out := forUpTo N (fun i o =>
        forUpTo N (fun j o2 => setMat o2 i j (o2 i j * oneOverDeterminant)) o) out
      (true, out)

/-- Source lines 142-145. -/
def ATACompressedStorageSize : ℕ → ℕ
  | 0 => 1
  | degree + 1 => ATACompressedStorageSize degree * 2 + 1

/-- The data members of `COnlineLeastSquaresFitter<DEGREE>` (source lines 268-269):
`m_ATY` has `DEGREE + 1` entries, `m_ATACompressed` has
`ATACompressedStorageSize DEGREE`. -/
structure COnlineLeastSquaresFitter where
  /-- The vector `m_ATY`. -/
  m_ATY : TVector
  /-- The packed store `m_ATACompressed`. -/
  m_ATACompressed : TVector

namespace COnlineLeastSquaresFitter

/-- Source lines 227-247.  Returns the object after the call and the contents of
`ATA`.  The first loop has state `(ATA, inputIndex)`. -/
def DecompressATAMatrix (DEGREE : ℕ) (self : COnlineLeastSquaresFitter) (ATA : TMatrix) :
    COnlineLeastSquaresFitter × TMatrix :=
  let st := forDownFrom (DEGREE + 1) (fun i (st : TMatrix × ℕ) =>
    let row := (DEGREE + 1) - i
    forUpTo i (fun j (st2 : TMatrix × ℕ) =>
      (setMat st2.1 row (row + j) (self.m_ATACompressed st2.2), st2.2 + 1)) st) (ATA, 0)
  let ATA := forFromTo 1 (DEGREE + 1) (fun i ATA =>
    forUpTo i (fun j ATA2 => setMat ATA2 i j (ATA2 j i)) ATA) st.1
  (self, ATA)

/-- Source lines 249-262.  Returns the object after the call.  The loop state is
`(m_ATACompressed, outputIndex)`. -/
def CompressATAMatrix (DEGREE : ℕ) (self : COnlineLeastSquaresFitter) (ATA : TMatrix) :
    COnlineLeastSquaresFitter :=
  let st := forDownFrom (DEGREE + 1) (fun i (st : TVector × ℕ) =>
    let row := (DEGREE + 1) - i
    forUpTo i (fun j (st2 : TVector × ℕ) =>
      (setVec st2.1 st2.2 (ATA row (row + j)), st2.2 + 1)) st) (self.m_ATACompressed, 0)
  { self with m_ATACompressed := st.1 }

/-- Source lines 153-181, the constructor.  `self` is the object's storage before
construction; the `static_assert` leaves no instance when it fails. -/
def construct (DEGREE NUMDATAPOINTS : ℕ) (initialData : TDataPointList)
    (self : COnlineLeastSquaresFitter) : Option COnlineLeastSquaresFitter :=
  if NUMDATAPOINTS ≥ DEGREE + 1 then
    let A := forUpTo NUMDATAPOINTS (fun j A =>
      forUpTo (DEGREE + 1) (fun k A2 => setMat A2 j k (initialData j 0 ^ k)) A) uninitMatrix
    let AT := TransposeMatrix NUMDATAPOINTS (DEGREE + 1) A uninitMatrix
    let ATA := forUpTo (DEGREE + 1) (fun j ATA =>
      forUpTo (DEGREE + 1) (fun k ATA2 =>
        setMat ATA2 j k (DotProduct NUMDATAPOINTS (AT j) (AT k))) ATA) uninitMatrix
    let initialDataTransposed := TransposeMatrix NUMDATAPOINTS 2 initialData uninitMatrix
    let self := { self with m_ATY := forUpTo (DEGREE + 1) (fun i m_ATY =>
      setVec m_ATY i (DotProduct NUMDATAPOINTS (AT i) (initialDataTransposed 1))) self.m_ATY }
    some (CompressATAMatrix DEGREE self ATA)
  else none

/-- Source lines 183-206.  Returns the object after the call. -/
def AddDataPoint (DEGREE : ℕ) (self : COnlineLeastSquaresFitter) (dataPoint : TDataPoint) :
    COnlineLeastSquaresFitter :=
  let r := DecompressATAMatrix DEGREE self uninitMatrix
  let self := r.1
  let ATA := forUpTo (DEGREE + 1) (fun i ATA =>
    forUpTo (DEGREE + 1) (fun k ATA2 =>
      setMat ATA2 i k (ATA2 i k + dataPoint 0 ^ (i + k))) ATA) r.2
  let self := CompressATAMatrix DEGREE self ATA
  { self with m_ATY := forUpTo (DEGREE + 1) (fun i m_ATY =>
      setVec m_ATY i (m_ATY i + dataPoint 0 ^ i * dataPoint 1)) self.m_ATY }

/-- Source lines 208-224.  Returns the object after the call, the success flag and the
contents of `coefficients` after the call. -/
def CalculateCoefficients (DEGREE : ℕ) (self : COnlineLeastSquaresFitter)
    (coefficients : TVector) : COnlineLeastSquaresFitter × Bool × TVector :=
  let r := DecompressATAMatrix DEGREE self uninitMatrix
  let self := r.1
  let inv := InvertMatrix (DEGREE + 1) r.2 uninitMatrix
  if !inv.1 then (self, false, coefficients)
  else
    let coefficients := forUpTo (DEGREE + 1) (fun i c =>
      setVec c i (DotProduct (DEGREE + 1) (inv.2 i) self.m_ATY)) coefficients
    (self, true, coefficients)

end COnlineLeastSquaresFitter

/-! ## Vocabulary of the statements -/

/-- The first `N` rows and columns of an array of arrays, as a matrix over `Fin N`. -/
def toMatrix (M N : ℕ) (A : TMatrix) : Matrix (Fin M) (Fin N) ℚ :=
  Matrix.of fun i j => A i j

/-- The first `N` entries of an array, as a vector over `Fin N`. -/
def toVector (N : ℕ) (v : TVector) : Fin N → ℚ :=
  fun i => v i

/-- A data point from its two coordinates. -/
def mkPoint (x y : ℚ) : TDataPoint :=
  fun c => if c = 0 then x else y

/-- The point list holding the points of a list, in order. -/
def pointList (pts : List (ℚ × ℚ)) : TDataPointList :=
  fun j => mkPoint (pts.getD j (0, 0)).1 (pts.getD j (0, 0)).2

/-- The object after `AddDataPoint` has been called on each point of a list, in order. -/
def addAll (DEGREE : ℕ) (self : COnlineLeastSquaresFitter) (pts : List (ℚ × ℚ)) :
    COnlineLeastSquaresFitter :=
  pts.foldl (fun f p => COnlineLeastSquaresFitter.AddDataPoint DEGREE f (mkPoint p.1 p.2)) self

/-- The value that the generic `InvertMatrix<N>` leaves in `cofactors[i][j]`: the
determinant of the minor, negated when `i + j` is odd. -/
def cofactorEntry (N : ℕ) (inp : TMatrix) (i j : ℕ) : ℚ :=
  (if (i + j) % 2 = 1 then -1 else 1) * Determinant (N - 1) (MinorMatrix N inp uninitMatrix i j)

/-- The number of store entries that the rows before `row` take: row `r` takes
`D + 1 - r` of them. -/
def rowStart (D : ℕ) : ℕ → ℕ
  | 0 => 0
  | r + 1 => rowStart D r + (D + 1 - r)

/-- The power sum `Σ_j x_j ^ k` over a list of points. -/
def powerSum (pts : List (ℚ × ℚ)) (k : ℕ) : ℚ :=
  (pts.map fun p => p.1 ^ k).sum

/-- The moment `Σ_j x_j ^ i * y_j` over a list of points. -/
def momentSum (pts : List (ℚ × ℚ)) (i : ℕ) : ℚ :=
  (pts.map fun p => p.1 ^ i * p.2).sum

/-- The object holds the statistics of the points `pts`: `m_ATY` their moments, and the
store, at the place of the upper-triangle entry `(r, c)`, their power sum of order `r + c`. -/
def Summarises (D : ℕ) (f : COnlineLeastSquaresFitter) (pts : List (ℚ × ℚ)) : Prop :=
  (∀ i, i ≤ D → f.m_ATY i = momentSum pts i)
  ∧ ∀ r c, r ≤ c → c ≤ D → f.m_ATACompressed (rowStart D r + (c - r)) = powerSum pts (r + c)

/-- The x-values that occur in a list of points. -/
def xValues (pts : List (ℚ × ℚ)) : Finset ℚ :=
  (pts.map Prod.fst).toFinset

/-- The matrix of power sums of a list of points: entry `(i, k)` is `Σ_j x_j ^ (i + k)`. -/
def gramMatrix (D : ℕ) (pts : List (ℚ × ℚ)) : Matrix (Fin (D + 1)) (Fin (D + 1)) ℚ :=
  Matrix.of fun i k => powerSum pts (i + k)

/-- The value at `x` of the polynomial with coefficients `c 0, ..., c D`. -/
def evalPoly (D : ℕ) (c : TVector) (x : ℚ) : ℚ :=
  ∑ i in Finset.range (D + 1), c i * x ^ i

/-- The squared residual of the polynomial with coefficients `c` on a list of points. -/
def sqResidual (D : ℕ) (c : TVector) (pts : List (ℚ × ℚ)) : ℚ :=
  (pts.map fun p => (evalPoly D c p.1 - p.2) ^ 2).sum

/-! ## The code with its accesses logged

The same loops as above, with one more component in the state: the list of the array
positions a pass touches, in the order of execution. -/

/-- `MinorMatrix` (source lines 30-50) with a log: each assignment
`out[destI][destJ] = in[i][j]` appends `(destI, destJ, i, j)`. -/
def MinorMatrix_logged (N : ℕ) (inp out : TMatrix) (excludeI excludeJ : ℕ) :
    TMatrix × List (ℕ × ℕ × ℕ × ℕ) :=
  let r := forUpTo N (fun i (st : (TMatrix × ℕ) × List (ℕ × ℕ × ℕ × ℕ)) =>
    if i ≠ excludeI then
      let inner := forUpTo N (fun j (st2 : (TMatrix × ℕ) × List (ℕ × ℕ × ℕ × ℕ)) =>
        if j ≠ excludeJ then
          ((setMat st2.1.1 st.1.2 st2.1.2 (inp i j), st2.1.2 + 1),
            st2.2 ++ [(st.1.2, st2.1.2, i, j)])
        else st2) ((st.1.1, 0), st.2)
      ((inner.1.1, st.1.2 + 1), inner.2)
    else st) ((out, 0), [])
  (r.1.1, r.2)

/-- `CompressATAMatrix` (source lines 249-262) with a log: each assignment
`m_ATACompressed[outputIndex] = ATA[row][row + j]` appends `(outputIndex, row, row + j)`. -/
def CompressATAMatrix_logged (DEGREE : ℕ) (self : COnlineLeastSquaresFitter) (ATA : TMatrix) :
    COnlineLeastSquaresFitter × List (ℕ × ℕ × ℕ) :=
  let st := forDownFrom (DEGREE + 1) (fun i (st : (TVector × ℕ) × List (ℕ × ℕ × ℕ)) =>
    let row := (DEGREE + 1) - i
    forUpTo i (fun j (st2 : (TVector × ℕ) × List (ℕ × ℕ × ℕ)) =>
      ((setVec st2.1.1 st2.1.2 (ATA row (row + j)), st2.1.2 + 1),
        st2.2 ++ [(st2.1.2, row, row + j)])) st) ((self.m_ATACompressed, 0), [])
  ({ self with m_ATACompressed := st.1.1 }, st.2)

/-- `DecompressATAMatrix` (source lines 227-247) with two logs: each assignment
`ATA[row][row + j] = m_ATACompressed[inputIndex]` appends `(inputIndex, row, row + j)` to
the first, each assignment `ATA[i][j] = ATA[j][i]` appends the position read `(j, i)` and
the position written `(i, j)` to the second. -/
def DecompressATAMatrix_logged (DEGREE : ℕ) (self : COnlineLeastSquaresFitter) (ATA : TMatrix) :
    (COnlineLeastSquaresFitter × TMatrix) × List (ℕ × ℕ × ℕ) × List (ℕ × ℕ) :=
  let st := forDownFrom (DEGREE + 1) (fun i (st : (TMatrix × ℕ) × List (ℕ × ℕ × ℕ)) =>
    let row := (DEGREE + 1) - i
    forUpTo i (fun j (st2 : (TMatrix × ℕ) × List (ℕ × ℕ × ℕ)) =>
      ((setMat st2.1.1 row (row + j) (self.m_ATACompressed st2.1.2), st2.1.2 + 1),
        st2.2 ++ [(st2.1.2, row, row + j)])) st) ((ATA, 0), [])
  let st3 := forFromTo 1 (DEGREE + 1) (fun i (st : TMatrix × List (ℕ × ℕ)) =>
    forUpTo i (fun j (st2 : TMatrix × List (ℕ × ℕ)) =>
      (setMat st2.1 i j (st2.1 j i), st2.2 ++ [(j, i), (i, j)])) st) (st.1.1, [])
  ((self, st3.1), st.2, st3.2)

/-! ## Loops -/

theorem forUpTo_induction {σ : Type} (P : ℕ → σ → Prop) (n : ℕ) (body : ℕ → σ → σ) (s : σ)
    (h0 : P 0 s) (hs : ∀ i, i < n → ∀ t, P i t → P (i + 1) (body i t)) :
    P n (forUpTo n body s) := by
  induction n with
  | zero => exact h0
  | succ n ih =>
    exact hs n (Nat.lt_succ_self n) _ (ih fun i hi t ht => hs i (Nat.lt_succ_of_lt hi) t ht)

theorem forUpTo_congr {σ : Type} (n : ℕ) (f g : ℕ → σ → σ) (s : σ)
    (h : ∀ i, i < n → ∀ t, f i t = g i t) : forUpTo n f s = forUpTo n g s := by
  induction n with
  | zero => rfl
  | succ n ih =>
    simp only [forUpTo]
    rw [ih fun i hi t => h i (Nat.lt_succ_of_lt hi) t, h n (Nat.lt_succ_self n)]

theorem forUpTo_succ_front {σ : Type} (n : ℕ) (f : ℕ → σ → σ) (s : σ) :
    forUpTo (n + 1) f s = forUpTo n (fun k => f (k + 1)) (f 0 s) := by
  induction n with
  | zero => rfl
  | succ n ih =>
    have h : forUpTo (n + 2) f s = f (n + 1) (forUpTo (n + 1) f s) := rfl
    rw [h, ih]
    rfl

/-- The descending loop runs the bodies `n, n - 1, ..., 1` in that order. -/
theorem forDownFrom_eq_forUpTo {σ : Type} (n : ℕ) (body : ℕ → σ → σ) (s : σ) :
    forDownFrom n body s = forUpTo n (fun k => body (n - k)) s := by
  induction n generalizing s with
  | zero => rfl
  | succ n ih =>
    rw [forUpTo_succ_front]
    simp only [forDownFrom, Nat.sub_zero, Nat.add_sub_add_right]
    exact ih _

theorem setVec_apply (v : TVector) (i : ℕ) (x : ℚ) (a : ℕ) :
    setVec v i x a = if a = i then x else v a := rfl

theorem setMat_apply (m : TMatrix) (i j : ℕ) (x : ℚ) (a b : ℕ) :
    setMat m i j x a b = if a = i ∧ b = j then x else m a b := by
  unfold setMat setVec
  by_cases ha : a = i
  · subst ha; simp
  · simp [ha]

/-- The filling loop: each entry of the first `n` is rewritten from its own old value. -/
theorem forUpTo_setVec (n : ℕ) (g : ℕ → ℚ → ℚ) (v : TVector) :
    forUpTo n (fun i w => setVec w i (g i (w i))) v
      = fun a => if a < n then g a (v a) else v a := by
  induction n with
  | zero => funext a; simp [forUpTo]
  | succ n ih =>
    simp only [forUpTo, ih]
    funext a
    by_cases h1 : a = n
    · subst h1; simp [setVec_apply]
    · have h2 : a < n + 1 ↔ a < n := by omega
      simp [setVec_apply, h1, h2]

theorem forUpTo_setMat_row (n i : ℕ) (g : ℕ → ℚ → ℚ) (m : TMatrix) :
    forUpTo n (fun k w => setMat w i k (g k (w i k))) m
      = fun a b => if a = i ∧ b < n then g b (m a b) else m a b := by
  induction n with
  | zero => funext a b; simp [forUpTo]
  | succ n ih =>
    simp only [forUpTo, ih]
    funext a b
    by_cases ha : a = i
    · subst ha
      by_cases hb : b = n
      · subst hb; simp [setMat_apply]
      · have h2 : b < n + 1 ↔ b < n := by omega
        simp [setMat_apply, hb, h2]
    · simp [setMat_apply, ha]

/-- The doubly nested filling loop over an `M` by `N` block. -/
theorem forUpTo_setMat (M N : ℕ) (g : ℕ → ℕ → ℚ → ℚ) (m : TMatrix) :
    forUpTo M (fun i w => forUpTo N (fun k w2 => setMat w2 i k (g i k (w2 i k))) w) m
      = fun a b => if a < M ∧ b < N then g a b (m a b) else m a b := by
  induction M with
  | zero => funext a b; simp [forUpTo]
  | succ M ih =>
    simp only [forUpTo]
    rw [ih, forUpTo_setMat_row]
    funext a b
    by_cases ha : a = M
    · subst ha; simp
    · have h2 : a < M + 1 ↔ a < M := by omega
      simp [ha, h2]

theorem forUpTo_fillVec (n : ℕ) (g : ℕ → ℚ) (v : TVector) :
    forUpTo n (fun i w => setVec w i (g i)) v = fun a => if a < n then g a else v a :=
  forUpTo_setVec n (fun i _ => g i) v

theorem forUpTo_fillMat (M N : ℕ) (g : ℕ → ℕ → ℚ) (m : TMatrix) :
    forUpTo M (fun i w => forUpTo N (fun k w2 => setMat w2 i k (g i k)) w) m
      = fun a b => if a < M ∧ b < N then g a b else m a b :=
  forUpTo_setMat M N (fun i k _ => g i k) m

theorem TransposeMatrix_apply (M N : ℕ) (inp result : TMatrix) (a b : ℕ) :
    TransposeMatrix M N inp result a b = if a < N ∧ b < M then inp b a else result a b := by
  unfold TransposeMatrix
  induction M generalizing a b with
  | zero => simp [forUpTo]
  | succ M ih =>
    simp only [forUpTo]
    have inner : ∀ (n : ℕ) (w : TMatrix) (a b : ℕ),
        forUpTo n (fun k res2 => setMat res2 k M (inp M k)) w a b
          = if a < n ∧ b = M then inp b a else w a b := by
      intro n
      induction n with
      | zero => intro w a b; simp [forUpTo]
      | succ n ihn =>
        intro w a b
        simp only [forUpTo, setMat_apply, ihn]
        by_cases ha : a = n
        · subst ha
          by_cases hb : b = M
          · subst hb; simp
          · simp [hb]
        · have h2 : a < n + 1 ↔ a < n := by omega
          simp [ha, h2]
    rw [inner, ih]
    by_cases hb : b = M
    · subst hb; simp
    · have h2 : b < M + 1 ↔ b < M := by omega
      simp [hb, h2]

theorem DotProduct_eq_sum (N : ℕ) (A B : TVector) :
    DotProduct N A B = ∑ i in Finset.range N, A i * B i := by
  unfold DotProduct
  induction N with
  | zero => simp [forUpTo]
  | succ N ih => simp only [forUpTo, ih, Finset.sum_range_succ]

/-! ## The packed store -/

theorem rowStart_succ (D r : ℕ) : rowStart D (r + 1) = rowStart D r + (D + 1 - r) := rfl

theorem rowStart_mono (D : ℕ) {r m : ℕ} (h : r ≤ m) : rowStart D r ≤ rowStart D m := by
  induction m with
  | zero =>
    have : r = 0 := by omega
    subst this; exact le_refl _
  | succ m ih =>
    by_cases hr : r = m + 1
    · subst hr; exact le_refl _
    · have := ih (by omega)
      rw [rowStart_succ]; omega

theorem storeWrite_inner (n : ℕ) (g : ℕ → ℚ) (v : TVector) (c : ℕ) :
    forUpTo n (fun j (st2 : TVector × ℕ) => (setVec st2.1 st2.2 (g j), st2.2 + 1)) (v, c)
      = (fun a => if c ≤ a ∧ a < c + n then g (a - c) else v a, c + n) := by
  induction n with
  | zero =>
    simp only [forUpTo]
    congr 1
    funext a
    have : ¬ (c ≤ a ∧ a < c) := by omega
    simp [this]
  | succ n ih =>
    simp only [forUpTo, ih]
    congr 1
    funext a
    by_cases h1 : a = c + n
    · subst h1; simp [setVec_apply]
    · have h2 : (c ≤ a ∧ a < c + (n + 1)) ↔ (c ≤ a ∧ a < c + n) := by omega
      simp [setVec_apply, h1, h2]

/-- The rows of the descending loops of the codec, counted upward. -/
theorem codecLoop_rows {σ : Type} (D : ℕ) (inner : ℕ → ℕ → σ → σ) (s : σ) :
    forDownFrom (D + 1) (fun i st => inner ((D + 1) - i) i st) s
      = forUpTo (D + 1) (fun row st => inner row (D + 1 - row) st) s := by
  rw [forDownFrom_eq_forUpTo]
  apply forUpTo_congr
  intro k hk t
  have : D + 1 - (D + 1 - k) = k := by omega
  simp only [this]

theorem compressLoop_spec (D : ℕ) (ATA : TMatrix) (v : TVector) (m : ℕ) :
    (forUpTo m (fun row (st : TVector × ℕ) =>
        forUpTo (D + 1 - row) (fun j (st2 : TVector × ℕ) =>
          (setVec st2.1 st2.2 (ATA row (row + j)), st2.2 + 1)) st) (v, 0)).2 = rowStart D m
    ∧ (∀ a, rowStart D m ≤ a →
        (forUpTo m (fun row (st : TVector × ℕ) =>
          forUpTo (D + 1 - row) (fun j (st2 : TVector × ℕ) =>
            (setVec st2.1 st2.2 (ATA row (row + j)), st2.2 + 1)) st) (v, 0)).1 a = v a)
    ∧ (∀ r j, r < m → j < D + 1 - r →
        (forUpTo m (fun row (st : TVector × ℕ) =>
          forUpTo (D + 1 - row) (fun j (st2 : TVector × ℕ) =>
            (setVec st2.1 st2.2 (ATA row (row + j)), st2.2 + 1)) st) (v, 0)).1
          (rowStart D r + j) = ATA r (r + j)) := by
  refine forUpTo_induction
    (fun m (st : TVector × ℕ) => st.2 = rowStart D m ∧ (∀ a, rowStart D m ≤ a → st.1 a = v a)
      ∧ (∀ r j, r < m → j < D + 1 - r → st.1 (rowStart D r + j) = ATA r (r + j)))
    m _ (v, 0) ⟨rfl, fun _ _ => rfl, fun r j hr _ => absurd hr (Nat.not_lt_zero r)⟩ ?_
  rintro i hi ⟨w, c⟩ ⟨h1, h2, h3⟩
  simp only at h1 h2 h3
  subst h1
  rw [storeWrite_inner]
  refine ⟨(rowStart_succ D i).symm, ?_, ?_⟩
  · intro a ha
    rw [rowStart_succ] at ha
    have : ¬ (rowStart D i ≤ a ∧ a < rowStart D i + (D + 1 - i)) := by omega
    simp only [this, if_false]
    exact h2 a (by omega)
  · intro r j hr hj
    by_cases hri : r = i
    · subst hri
      have : rowStart D r ≤ rowStart D r + j ∧ rowStart D r + j < rowStart D r + (D + 1 - r) := by
        omega
      simp only [this, and_self, if_true, Nat.add_sub_cancel_left]
    · have hlt : r < i := by omega
      have hmono := rowStart_mono D (Nat.succ_le_of_lt hlt)
      rw [rowStart_succ] at hmono
      have : ¬ (rowStart D i ≤ rowStart D r + j ∧
          rowStart D r + j < rowStart D i + (D + 1 - i)) := by omega
      simp only [this, if_false]
      exact h3 r j hlt hj

/-- What `CompressATAMatrix` leaves in the object: entry `(r, c)` of the upper triangle
is at `rowStart r + (c - r)`, the entries from `rowStart (D + 1)` on and `m_ATY` are
untouched. -/
theorem CompressATAMatrix_spec (D : ℕ) (self : COnlineLeastSquaresFitter) (ATA : TMatrix) :
    (COnlineLeastSquaresFitter.CompressATAMatrix D self ATA).m_ATY = self.m_ATY
    ∧ (∀ a, rowStart D (D + 1) ≤ a →
        (COnlineLeastSquaresFitter.CompressATAMatrix D self ATA).m_ATACompressed a
          = self.m_ATACompressed a)
    ∧ (∀ r c, r ≤ c → c ≤ D →
        (COnlineLeastSquaresFitter.CompressATAMatrix D self ATA).m_ATACompressed
          (rowStart D r + (c - r)) = ATA r c) := by
  unfold COnlineLeastSquaresFitter.CompressATAMatrix
  simp only
  rw [codecLoop_rows D (fun row i (st : TVector × ℕ) =>
    forUpTo i (fun j (st2 : TVector × ℕ) =>
      (setVec st2.1 st2.2 (ATA row (row + j)), st2.2 + 1)) st)]
  obtain ⟨_, h2, h3⟩ := compressLoop_spec D ATA self.m_ATACompressed (D + 1)
  refine ⟨trivial, h2, ?_⟩
  intro r c hrc hc
  have := h3 r (c - r) (by omega) (by omega)
  rwa [Nat.add_sub_cancel' hrc] at this

theorem storeRead_inner (n row : ℕ) (store : TVector) (M : TMatrix) (c : ℕ) :
    forUpTo n (fun j (st2 : TMatrix × ℕ) =>
        (setMat st2.1 row (row + j) (store st2.2), st2.2 + 1)) (M, c)
      = (fun a b => if a = row ∧ row ≤ b ∧ b < row + n then store (c + (b - row)) else M a b,
          c + n) := by
  induction n with
  | zero =>
    simp only [forUpTo]
    congr 1
    funext a b
    have : ¬ (a = row ∧ row ≤ b ∧ b < row) := by omega
    simp [this]
  | succ n ih =>
    simp only [forUpTo, ih]
    congr 1
    funext a b
    by_cases h1 : a = row ∧ b = row + n
    · obtain ⟨ha, hb⟩ := h1
      subst ha; subst hb; simp [setMat_apply]
    · have h2 : (a = row ∧ row ≤ b ∧ b < row + (n + 1)) ↔ (a = row ∧ row ≤ b ∧ b < row + n) := by
        omega
      simp [setMat_apply, h1, h2]

theorem decompressLoop_spec (D : ℕ) (store : TVector) (ATA0 : TMatrix) (m : ℕ) :
    (forUpTo m (fun row (st : TMatrix × ℕ) =>
        forUpTo (D + 1 - row) (fun j (st2 : TMatrix × ℕ) =>
          (setMat st2.1 row (row + j) (store st2.2), st2.2 + 1)) st) (ATA0, 0)).2 = rowStart D m
    ∧ (∀ a b,
        (forUpTo m (fun row (st : TMatrix × ℕ) =>
          forUpTo (D + 1 - row) (fun j (st2 : TMatrix × ℕ) =>
            (setMat st2.1 row (row + j) (store st2.2), st2.2 + 1)) st) (ATA0, 0)).1 a b
          = if a < m ∧ a ≤ b ∧ b ≤ D then store (rowStart D a + (b - a)) else ATA0 a b) := by
  refine forUpTo_induction
    (fun m (st : TMatrix × ℕ) => st.2 = rowStart D m ∧ (∀ a b, st.1 a b
      = if a < m ∧ a ≤ b ∧ b ≤ D then store (rowStart D a + (b - a)) else ATA0 a b))
    m _ (ATA0, 0) ⟨rfl, fun a b => by simp⟩ ?_
  rintro i _ ⟨w, c⟩ ⟨h1, h2⟩
  simp only at h1 h2
  subst h1
  rw [storeRead_inner]
  refine ⟨(rowStart_succ D i).symm, ?_⟩
  intro a b
  simp only [h2]
  by_cases h : a = i ∧ i ≤ b ∧ b ≤ D
  · obtain ⟨ha, hb, hd⟩ := h
    subst ha
    have e1 : a = a ∧ a ≤ b ∧ b < a + (D + 1 - a) := by omega
    have e2 : a < a + 1 ∧ a ≤ b ∧ b ≤ D := by omega
    simp only [e1, e2, and_self, if_true]
  · have e1 : ¬ (a = i ∧ i ≤ b ∧ b < i + (D + 1 - i)) := by omega
    have e2 : (a < i + 1 ∧ a ≤ b ∧ b ≤ D) ↔ (a < i ∧ a ≤ b ∧ b ≤ D) := by omega
    simp only [e1, e2, if_false]

theorem reflect_inner (i n : ℕ) (hn : n ≤ i) (M : TMatrix) :
    forUpTo n (fun j w => setMat w i j (w j i)) M
      = fun a b => if a = i ∧ b < n then M b a else M a b := by
  induction n with
  | zero => funext a b; simp [forUpTo]
  | succ n ih =>
    simp only [forUpTo, ih (by omega)]
    funext a b
    have hni : ¬ (n = i ∧ i < n) := by omega
    by_cases h1 : a = i ∧ b = n
    · obtain ⟨ha, hb⟩ := h1
      subst ha; subst hb; simp [setMat_apply, hni]
    · have h2 : (a = i ∧ b < n + 1) ↔ (a = i ∧ b < n) := by omega
      simp [setMat_apply, h1, h2]

theorem reflectLoop_spec (D : ℕ) (M : TMatrix) :
    forFromTo 1 (D + 1) (fun i ATA => forUpTo i (fun j ATA2 => setMat ATA2 i j (ATA2 j i)) ATA) M
      = fun a b => if b < a ∧ a ≤ D then M b a else M a b := by
  unfold forFromTo
  simp only [Nat.add_sub_cancel]
  induction D with
  | zero =>
    funext a b
    have : ¬ (b < a ∧ a ≤ 0) := by omega
    simp only [forUpTo, this, if_false]
  | succ D ih =>
    simp only [forUpTo]
    rw [ih, reflect_inner _ _ (le_refl _)]
    funext a b
    by_cases h1 : a = 1 + D ∧ b < 1 + D
    · obtain ⟨ha, hb⟩ := h1
      subst ha
      have e1 : ¬ (1 + D < b ∧ b ≤ D) := by omega
      have e2 : b < 1 + D ∧ 1 + D ≤ D + 1 := by omega
      simp [hb, e1, e2]
    · have e2 : (b < a ∧ a ≤ D + 1) ↔ (b < a ∧ a ≤ D) := by omega
      simp only [h1, e2, if_false]

/-- What `DecompressATAMatrix` returns: the object as it was, and a matrix whose entry
`(a, b)` inside the `(D + 1)` by `(D + 1)` block is the store entry of the
upper-triangle position `(min a b, max a b)`. -/
theorem DecompressATAMatrix_spec (D : ℕ) (self : COnlineLeastSquaresFitter) (ATA0 : TMatrix) :
    (COnlineLeastSquaresFitter.DecompressATAMatrix D self ATA0).1 = self
    ∧ ∀ a b, (COnlineLeastSquaresFitter.DecompressATAMatrix D self ATA0).2 a b
        = if a ≤ D ∧ b ≤ D then
            self.m_ATACompressed (rowStart D (min a b) + (max a b - min a b))
          else ATA0 a b := by
  unfold COnlineLeastSquaresFitter.DecompressATAMatrix
  simp only
  rw [codecLoop_rows D (fun row i (st : TMatrix × ℕ) =>
    forUpTo i (fun j (st2 : TMatrix × ℕ) =>
      (setMat st2.1 row (row + j) (self.m_ATACompressed st2.2), st2.2 + 1)) st)]
  obtain ⟨_, h2⟩ := decompressLoop_spec D self.m_ATACompressed ATA0 (D + 1)
  refine ⟨trivial, ?_⟩
  intro a b
  rw [reflectLoop_spec]
  simp only [h2]
  by_cases hab : b < a
  · have hmin : min a b = b := min_eq_right (le_of_lt hab)
    have hmax : max a b = a := max_eq_left (le_of_lt hab)
    rw [hmin, hmax]
    by_cases hD : a ≤ D
    · have e1 : b < a ∧ a ≤ D := ⟨hab, hD⟩
      have e2 : b < D + 1 ∧ b ≤ a ∧ a ≤ D := by omega
      have e3 : a ≤ D ∧ b ≤ D := by omega
      simp only [e1, e2, e3, and_self, if_true]
    · have e1 : ¬ (b < a ∧ a ≤ D) := by omega
      have e2 : ¬ (a < D + 1 ∧ a ≤ b ∧ b ≤ D) := by omega
      have e3 : ¬ (a ≤ D ∧ b ≤ D) := by omega
      simp only [e1, e2, e3, if_false]
  · have hle : a ≤ b := by omega
    have hmin : min a b = a := min_eq_left hle
    have hmax : max a b = b := max_eq_right hle
    rw [hmin, hmax]
    have e1 : ¬ (b < a ∧ a ≤ D) := by omega
    have e2 : (a < D + 1 ∧ a ≤ b ∧ b ≤ D) ↔ (a ≤ D ∧ b ≤ D) := by omega
    simp only [e1, e2, if_false]

/-- Claim C5: compressing a symmetric `(D + 1)` by `(D + 1)` matrix and decompressing the
store gives back the matrix, entry by entry, whatever the object and the target matrix
held before. -/
theorem compress_decompress_roundtrip (D : ℕ) (M : TMatrix) (self : COnlineLeastSquaresFitter)
    (ATA0 : TMatrix) (hsym : ∀ i j, i ≤ D → j ≤ D → M i j = M j i) :
    ∀ i j, i ≤ D → j ≤ D →
      (COnlineLeastSquaresFitter.DecompressATAMatrix D
        (COnlineLeastSquaresFitter.CompressATAMatrix D self M) ATA0).2 i j = M i j := by
  intro i j hi hj
  rw [(DecompressATAMatrix_spec D _ ATA0).2 i j, if_pos ⟨hi, hj⟩]
  have hc := (CompressATAMatrix_spec D self M).2.2 (min i j) (max i j)
    (le_trans (min_le_left i j) (le_max_left i j)) (max_le hi hj)
  rw [hc]
  by_cases hij : i ≤ j
  · rw [min_eq_left hij, max_eq_right hij]
  · have hji : j ≤ i := by omega
    rw [min_eq_right hji, max_eq_left hji]
    exact hsym j i hj hi

/-- The roundtrip at degree 2, on the matrix with entries `i + j`. -/
theorem compress_decompress_roundtrip_witness :
    (∀ i j : ℕ, i ≤ 2 → j ≤ 2 →
      (fun a b : ℕ => (a : ℚ) + b) i j = (fun a b : ℕ => (a : ℚ) + b) j i)
    ∧ ∀ i j, i ≤ 2 → j ≤ 2 →
      (COnlineLeastSquaresFitter.DecompressATAMatrix 2
        (COnlineLeastSquaresFitter.CompressATAMatrix 2 ⟨fun _ => 0, fun _ => 0⟩
          (fun i j => (i : ℚ) + j)) uninitMatrix).2 i j = (i : ℚ) + j :=
  ⟨fun _ _ _ _ => add_comm _ _,
   compress_decompress_roundtrip 2 (fun i j => (i : ℚ) + j) ⟨fun _ => 0, fun _ => 0⟩ uninitMatrix
     (fun _ _ _ _ => add_comm _ _)⟩

/-! ## The statistics held by the fitter -/

theorem sum_range_getD (f : ℚ × ℚ → ℚ) (d : ℚ × ℚ) (pts : List (ℚ × ℚ)) :
    ∑ p in Finset.range pts.length, f (pts.getD p d) = (pts.map f).sum := by
  induction pts with
  | nil => simp
  | cons q qs ih =>
    rw [List.length_cons, Finset.sum_range_succ']
    simp only [List.getD_cons_succ, List.getD_cons_zero, List.map_cons, List.sum_cons]
    rw [ih, add_comm]

/-- What the constructor leaves in the object, for any point array. -/
theorem construct_spec (D NUM : ℕ) (data : TDataPointList) (raw : COnlineLeastSquaresFitter)
    (hN : D + 1 ≤ NUM) :
    ∃ f, COnlineLeastSquaresFitter.construct D NUM data raw = some f
      ∧ (∀ i, i ≤ D → f.m_ATY i = ∑ p in Finset.range NUM, data p 0 ^ i * data p 1)
      ∧ (∀ i, D < i → f.m_ATY i = raw.m_ATY i)
      ∧ (∀ a, rowStart D (D + 1) ≤ a → f.m_ATACompressed a = raw.m_ATACompressed a)
      ∧ (∀ r c, r ≤ c → c ≤ D → f.m_ATACompressed (rowStart D r + (c - r))
          = ∑ p in Finset.range NUM, data p 0 ^ r * data p 0 ^ c) := by
  unfold COnlineLeastSquaresFitter.construct
  rw [if_pos hN]
  refine ⟨_, rfl, ?_⟩
  rw [forUpTo_fillMat NUM (D + 1) (fun j k => data j 0 ^ k), forUpTo_fillMat (D + 1) (D + 1),
    forUpTo_fillVec]
  have hAT : ∀ i p, i ≤ D → p ∈ Finset.range NUM →
      TransposeMatrix NUM (D + 1)
        (fun a b => if a < NUM ∧ b < D + 1 then data a 0 ^ b else uninitMatrix a b)
        uninitMatrix i p = data p 0 ^ i := by
    intro i p hi hp
    have hp2 : p < NUM := Finset.mem_range.mp hp
    have e : i < D + 1 ∧ p < NUM := ⟨by omega, hp2⟩
    have e2 : p < NUM ∧ i < D + 1 := ⟨hp2, by omega⟩
    rw [TransposeMatrix_apply, if_pos e, if_pos e2]
  have hYT : ∀ p, p ∈ Finset.range NUM → TransposeMatrix NUM 2 data uninitMatrix 1 p = data p 1 := by
    intro p hp
    have hp2 : p < NUM := Finset.mem_range.mp hp
    rw [TransposeMatrix_apply, if_pos ⟨by omega, hp2⟩]
  refine ⟨?_, ?_, fun a ha => (CompressATAMatrix_spec D _ _).2.1 a ha, ?_⟩
  · intro i hi
    rw [(CompressATAMatrix_spec D _ _).1]
    simp only
    rw [if_pos (by omega), DotProduct_eq_sum]
    exact Finset.sum_congr rfl fun p hp => by rw [hAT i p hi hp, hYT p hp]
  · intro i hi
    rw [(CompressATAMatrix_spec D _ _).1]
    simp only
    rw [if_neg (by omega)]
  · intro r c hrc hc
    rw [(CompressATAMatrix_spec D _ _).2.2 r c hrc hc, if_pos ⟨by omega, by omega⟩,
      DotProduct_eq_sum]
    exact Finset.sum_congr rfl fun p hp => by rw [hAT r p (by omega) hp, hAT c p hc hp]

/-- What `AddDataPoint` leaves in the object. -/
theorem AddDataPoint_spec (D : ℕ) (f : COnlineLeastSquaresFitter) (pt : TDataPoint) :
    (∀ i, i ≤ D → (COnlineLeastSquaresFitter.AddDataPoint D f pt).m_ATY i
        = f.m_ATY i + pt 0 ^ i * pt 1)
    ∧ (∀ i, D < i → (COnlineLeastSquaresFitter.AddDataPoint D f pt).m_ATY i = f.m_ATY i)
    ∧ (∀ a, rowStart D (D + 1) ≤ a →
        (COnlineLeastSquaresFitter.AddDataPoint D f pt).m_ATACompressed a = f.m_ATACompressed a)
    ∧ (∀ r c, r ≤ c → c ≤ D →
        (COnlineLeastSquaresFitter.AddDataPoint D f pt).m_ATACompressed (rowStart D r + (c - r))
          = f.m_ATACompressed (rowStart D r + (c - r)) + pt 0 ^ (r + c)) := by
  unfold COnlineLeastSquaresFitter.AddDataPoint
  simp only
  rw [forUpTo_setVec (D + 1) (fun i y => y + pt 0 ^ i * pt 1),
    forUpTo_setMat (D + 1) (D + 1) (fun i k y => y + pt 0 ^ (i + k)),
    (DecompressATAMatrix_spec D f uninitMatrix).1]
  refine ⟨?_, ?_, ?_, ?_⟩
  · intro i hi
    simp only
    rw [if_pos (by omega), (CompressATAMatrix_spec D _ _).1]
  · intro i hi
    simp only
    rw [if_neg (by omega), (CompressATAMatrix_spec D _ _).1]
  · intro a ha
    exact (CompressATAMatrix_spec D _ _).2.1 a ha
  · intro r c hrc hc
    rw [(CompressATAMatrix_spec D _ _).2.2 r c hrc hc, if_pos ⟨by omega, by omega⟩,
      (DecompressATAMatrix_spec D f uninitMatrix).2 r c, if_pos ⟨by omega, hc⟩,
      min_eq_left hrc, max_eq_right hrc]

theorem pointList_x (pts : List (ℚ × ℚ)) (p : ℕ) : pointList pts p 0 = (pts.getD p (0, 0)).1 := rfl

theorem pointList_y (pts : List (ℚ × ℚ)) (p : ℕ) : pointList pts p 1 = (pts.getD p (0, 0)).2 := rfl

/-- After construction the object holds the statistics of the initial points. -/
theorem construct_summarises (D : ℕ) (pts : List (ℚ × ℚ)) (raw : COnlineLeastSquaresFitter)
    (hN : D + 1 ≤ pts.length) :
    ∃ f, COnlineLeastSquaresFitter.construct D pts.length (pointList pts) raw = some f
      ∧ Summarises D f pts := by
  obtain ⟨f, hf, h1, _, _, h4⟩ := construct_spec D pts.length (pointList pts) raw hN
  refine ⟨f, hf, ?_, ?_⟩
  · intro i hi
    rw [h1 i hi]
    simp only [pointList_x, pointList_y]
    exact sum_range_getD (fun q => q.1 ^ i * q.2) (0, 0) pts
  · intro r c hrc hc
    rw [h4 r c hrc hc]
    simp only [pointList_x, ← pow_add]
    exact sum_range_getD (fun q => q.1 ^ (r + c)) (0, 0) pts

/-- Adding a point keeps the statistics up to date. -/
theorem AddDataPoint_summarises (D : ℕ) (f : COnlineLeastSquaresFitter) (pts : List (ℚ × ℚ))
    (x y : ℚ) (h : Summarises D f pts) :
    Summarises D (COnlineLeastSquaresFitter.AddDataPoint D f (mkPoint x y)) (pts ++ [(x, y)]) := by
  obtain ⟨h1, h2⟩ := h
  obtain ⟨a1, _, _, a4⟩ := AddDataPoint_spec D f (mkPoint x y)
  refine ⟨?_, ?_⟩
  · intro i hi
    rw [a1 i hi, h1 i hi]
    simp [momentSum, mkPoint]
  · intro r c hrc hc
    rw [a4 r c hrc hc, h2 r c hrc hc]
    simp [powerSum, mkPoint]

theorem addAll_summarises (D : ℕ) (more : List (ℚ × ℚ)) :
    ∀ (f : COnlineLeastSquaresFitter) (pts : List (ℚ × ℚ)), Summarises D f pts →
      Summarises D (addAll D f more) (pts ++ more) := by
  induction more with
  | nil => intro f pts h; simpa [addAll] using h
  | cons q qs ih =>
    intro f pts h
    have h2 := ih _ _ (AddDataPoint_summarises D f pts q.1 q.2 h)
    simpa [addAll] using h2

/-- The decompressed matrix of an object that holds the statistics of `pts`. -/
theorem decompress_of_summarises (D : ℕ) (f : COnlineLeastSquaresFitter) (pts : List (ℚ × ℚ))
    (h : Summarises D f pts) (ATA0 : TMatrix) (i k : ℕ) (hi : i ≤ D) (hk : k ≤ D) :
    (COnlineLeastSquaresFitter.DecompressATAMatrix D f ATA0).2 i k = powerSum pts (i + k) := by
  rw [(DecompressATAMatrix_spec D f ATA0).2 i k, if_pos ⟨hi, hk⟩]
  rw [h.2 (min i k) (max i k) (le_trans (min_le_left i k) (le_max_left i k)) (max_le hi hk)]
  congr 1
  by_cases hik : i ≤ k
  · rw [min_eq_left hik, max_eq_right hik]
  · have hki : k ≤ i := by omega
    rw [min_eq_right hki, max_eq_left hki, add_comm]

/-- Claim C1: building the fitter from a batch of at least `D + 1` points and adding the
further points one by one gives the same `m_ATY` vector and the same decompressed `ATA`
matrix as building it from the batch followed by the further points.  This holds for every
degree, in particular for every `D ≥ 1`. -/
theorem incremental_equivalence (D : ℕ) (batch more : List (ℚ × ℚ))
    (raw1 raw2 : COnlineLeastSquaresFitter) (g1 g2 : TMatrix)
    (hN : D + 1 ≤ batch.length) :
    ∃ f0 f1,
      COnlineLeastSquaresFitter.construct D batch.length (pointList batch) raw1 = some f0
      ∧ COnlineLeastSquaresFitter.construct D (batch ++ more).length
          (pointList (batch ++ more)) raw2 = some f1
      ∧ toVector (D + 1) (addAll D f0 more).m_ATY = toVector (D + 1) f1.m_ATY
      ∧ toMatrix (D + 1) (D + 1)
          (COnlineLeastSquaresFitter.DecompressATAMatrix D (addAll D f0 more) g1).2
        = toMatrix (D + 1) (D + 1) (COnlineLeastSquaresFitter.DecompressATAMatrix D f1 g2).2 := by
  obtain ⟨f0, hf0, hs0⟩ := construct_summarises D batch raw1 hN
  obtain ⟨f1, hf1, hs1⟩ := construct_summarises D (batch ++ more) raw2
    (by rw [List.length_append]; omega)
  have hs := addAll_summarises D more f0 batch hs0
  refine ⟨f0, f1, hf0, hf1, ?_, ?_⟩
  · funext i
    simp only [toVector]
    rw [hs.1 i (by omega), hs1.1 i (by omega)]
  · ext i k
    simp only [toMatrix, Matrix.of_apply]
    rw [decompress_of_summarises D _ _ hs g1 i k (by omega) (by omega),
      decompress_of_summarises D _ _ hs1 g2 i k (by omega) (by omega)]

/-- The degree-1 run of the source's third test: two initial points, one added point. -/
theorem incremental_equivalence_witness :
    1 + 1 ≤ [((1 : ℚ), (2 : ℚ)), (2, 4)].length
    ∧ ∃ f0 f1,
      COnlineLeastSquaresFitter.construct 1 [((1 : ℚ), (2 : ℚ)), (2, 4)].length
          (pointList [(1, 2), (2, 4)]) ⟨fun _ => 0, fun _ => 0⟩ = some f0
      ∧ COnlineLeastSquaresFitter.construct 1 ([((1 : ℚ), (2 : ℚ)), (2, 4)] ++ [(3, 6)]).length
          (pointList ([(1, 2), (2, 4)] ++ [(3, 6)])) ⟨fun _ => 0, fun _ => 0⟩ = some f1
      ∧ toVector (1 + 1) (addAll 1 f0 [(3, 6)]).m_ATY = toVector (1 + 1) f1.m_ATY
      ∧ toMatrix (1 + 1) (1 + 1)
          (COnlineLeastSquaresFitter.DecompressATAMatrix 1 (addAll 1 f0 [(3, 6)]) uninitMatrix).2
        = toMatrix (1 + 1) (1 + 1)
            (COnlineLeastSquaresFitter.DecompressATAMatrix 1 f1 uninitMatrix).2 :=
  ⟨by decide, incremental_equivalence 1 [(1, 2), (2, 4)] [(3, 6)] ⟨fun _ => 0, fun _ => 0⟩
    ⟨fun _ => 0, fun _ => 0⟩ uninitMatrix uninitMatrix (by decide)⟩

/-! ## Minors, determinant, inverse -/

theorem minor_inner (n dI eJ : ℕ) (f : ℕ → ℚ) (M : TMatrix) :
    forUpTo n (fun j (st2 : TMatrix × ℕ) =>
        if j ≠ eJ then (setMat st2.1 dI st2.2 (f j), st2.2 + 1) else st2) (M, 0)
      = (fun a b => if a = dI ∧ b < (if eJ < n then n - 1 else n)
            then f (if b < eJ then b else b + 1) else M a b,
          if eJ < n then n - 1 else n) := by
  induction n with
  | zero =>
    simp only [forUpTo]
    congr 1
    funext a b
    simp
  | succ n ih =>
    simp only [forUpTo, ih]
    rcases Nat.lt_trichotomy n eJ with h | h | h
    · have e1 : ¬ eJ < n := by omega
      have e2 : ¬ eJ < n + 1 := by omega
      have e3 : n ≠ eJ := by omega
      simp only [e1, e2, e3, if_false, ne_eq, not_false_eq_true, if_true]
      congr 1
      funext a b
      by_cases hab : a = dI ∧ b = n
      · obtain ⟨ha, hb⟩ := hab
        subst ha; subst hb
        simp [setMat_apply, h]
      · have e4 : (a = dI ∧ b < n + 1) ↔ (a = dI ∧ b < n) := by omega
        simp [setMat_apply, hab, e4]
    · subst h
      simp
    · have e1 : eJ < n := h
      have e2 : eJ < n + 1 := by omega
      have e3 : n ≠ eJ := by omega
      have e5 : n - 1 + 1 = n := by omega
      simp only [e1, e2, e3, if_true, ne_eq, not_false_eq_true, Nat.add_sub_cancel, e5]
      congr 1
      funext a b
      by_cases hab : a = dI ∧ b = n - 1
      · obtain ⟨ha, hb⟩ := hab
        subst ha; subst hb
        have e6 : ¬ n - 1 < eJ := by omega
        have e7 : n - 1 < n := by omega
        simp [setMat_apply, e5, e6, e7]
      · have e4 : (a = dI ∧ b < n) ↔ (a = dI ∧ b < n - 1) := by omega
        simp [setMat_apply, hab, e4]

theorem minor_outer (n N eI eJ : ℕ) (inp out : TMatrix) :
    forUpTo n (fun i (st : TMatrix × ℕ) =>
      if i ≠ eI then
        ((forUpTo N (fun j (st2 : TMatrix × ℕ) =>
          if j ≠ eJ then
            (setMat st2.1 st.2 st2.2 (inp i j), st2.2 + 1)
          else st2) (st.1, 0)).1, st.2 + 1)
      else st) (out, 0)
      = (fun a b => if a < (if eI < n then n - 1 else n) ∧ b < (if eJ < N then N - 1 else N)
            then inp (if a < eI then a else a + 1) (if b < eJ then b else b + 1) else out a b,
          if eI < n then n - 1 else n) := by
  induction n with
  | zero =>
    simp only [forUpTo]
    refine Prod.ext ?_ rfl
    funext a b
    simp
  | succ n ih =>
    simp only [forUpTo]
    rw [ih]
    simp only [minor_inner]
    rcases Nat.lt_trichotomy n eI with h | h | h
    · have e1 : ¬ eI < n := by omega
      have e2 : ¬ eI < n + 1 := by omega
      have e3 : n ≠ eI := by omega
      simp only [e1, e2, e3, if_false, ne_eq, not_false_eq_true, if_true]
      congr 1
      funext a b
      by_cases ha : a = n
      · subst ha
        have e4 : a < a + 1 := by omega
        simp [h, e4]
      · have e4 : a < n + 1 ↔ a < n := by omega
        simp [ha, e4]
    · subst h
      simp
    · have e1 : eI < n := h
      have e2 : eI < n + 1 := by omega
      have e3 : n ≠ eI := by omega
      have e5 : n - 1 + 1 = n := by omega
      simp only [e1, e2, e3, if_true, ne_eq, not_false_eq_true, Nat.add_sub_cancel, e5]
      congr 1
      funext a b
      by_cases ha : a = n - 1
      · subst ha
        have e6 : ¬ n - 1 < eI := by omega
        have e7 : n - 1 < n := by omega
        simp [e5, e6, e7]
      · have e4 : a < n ↔ a < n - 1 := by omega
        simp [ha, e4]

/-- The entries of the minor: row `excludeI` and column `excludeJ` are skipped, the rest of
`out` is left as it was. -/
theorem MinorMatrix_apply (N : ℕ) (inp out : TMatrix) (eI eJ : ℕ) (hI : eI < N) (hJ : eJ < N)
    (a b : ℕ) :
    MinorMatrix N inp out eI eJ a b
      = if a < N - 1 ∧ b < N - 1 then
          inp (if a < eI then a else a + 1) (if b < eJ then b else b + 1)
        else out a b := by
  unfold MinorMatrix
  rw [minor_outer]
  simp only [hI, hJ, if_true]

theorem succAbove_val (n : ℕ) (p : Fin (n + 1)) (a : Fin n) :
    (p.succAbove a : ℕ) = if (a : ℕ) < p then (a : ℕ) else a + 1 := by
  by_cases h : (a : ℕ) < p
  · rw [if_pos h, Fin.succAbove_of_castSucc_lt _ _ (by simpa [Fin.lt_def] using h)]
    rfl
  · rw [if_neg h, Fin.succAbove_of_le_castSucc _ _ (by simpa [Fin.le_def] using (not_lt.mp h))]
    rfl

/-- The minor written by `MinorMatrix` is the submatrix that skips one row and one column. -/
theorem toMatrix_MinorMatrix (n : ℕ) (inp out : TMatrix) (eI eJ : ℕ) (hI : eI < n + 1)
    (hJ : eJ < n + 1) :
    toMatrix n n (MinorMatrix (n + 1) inp out eI eJ)
      = (toMatrix (n + 1) (n + 1) inp).submatrix
          (Fin.succAbove ⟨eI, hI⟩) (Fin.succAbove ⟨eJ, hJ⟩) := by
  ext a b
  simp only [toMatrix, Matrix.of_apply, Matrix.submatrix_apply]
  rw [MinorMatrix_apply _ _ _ _ _ hI hJ, Nat.add_sub_cancel, if_pos ⟨a.2, b.2⟩, succAbove_val,
    succAbove_val]

theorem neg_one_pow_eq_ite (j : ℕ) : ((-1 : ℚ)) ^ j = if j % 2 = 1 then -1 else 1 := by
  by_cases h : j % 2 = 1
  · rw [if_pos h, Odd.neg_one_pow (Nat.odd_iff.mpr h)]
  · rw [if_neg h, Even.neg_one_pow (Nat.even_iff.mpr (by omega))]

/-- The recursion of `Determinant` computes the determinant of the matrix. -/
theorem Determinant_eq_det (n : ℕ) :
    ∀ inp : TMatrix, Determinant (n + 2) inp = (toMatrix (n + 2) (n + 2) inp).det := by
  induction n with
  | zero =>
    intro inp
    rw [Matrix.det_fin_two]
    rfl
  | succ n ih =>
    intro inp
    have key : ∀ k, k ≤ n + 3 → ∀ st0 : ℚ × TMatrix, st0.1 = 0 →
        (forUpTo k (fun j (st : ℚ × TMatrix) =>
          (st.1 + inp 0 j * (if j % 2 = 1 then
              Determinant (n + 2) (MinorMatrix (n + 3) inp st.2 0 j) * (-1)
            else Determinant (n + 2) (MinorMatrix (n + 3) inp st.2 0 j)),
           MinorMatrix (n + 3) inp st.2 0 j)) st0).1
        = ∑ j in Finset.range k, if h : j < n + 3 then
            (-1) ^ j * inp 0 j * ((toMatrix (n + 3) (n + 3) inp).submatrix
              (Fin.succAbove ⟨0, Nat.succ_pos _⟩) (Fin.succAbove ⟨j, h⟩)).det
          else 0 := by
      intro k
      induction k with
      | zero => intro _ st0 h0; simpa [forUpTo] using h0
      | succ k ihk =>
        intro hk st0 h0
        have hk2 : k < n + 3 := by omega
        simp only [forUpTo]
        rw [ihk (by omega) st0 h0, Finset.sum_range_succ, dif_pos hk2]
        congr 1
        rw [ih, toMatrix_MinorMatrix (n + 2) inp _ 0 k (Nat.succ_pos _) hk2, neg_one_pow_eq_ite]
        by_cases hodd : k % 2 = 1
        · simp only [hodd, if_true]; ring
        · simp only [hodd, if_false]; ring
    have hdet : Determinant (n + 3) inp
        = (forUpTo (n + 3) (fun j (st : ℚ × TMatrix) =>
          (st.1 + inp 0 j * (if j % 2 = 1 then
              Determinant (n + 2) (MinorMatrix (n + 3) inp st.2 0 j) * (-1)
            else Determinant (n + 2) (MinorMatrix (n + 3) inp st.2 0 j)),
           MinorMatrix (n + 3) inp st.2 0 j)) (0, uninitMatrix)).1 := rfl
    rw [hdet, key (n + 3) (le_refl _) (0, uninitMatrix) rfl, Finset.sum_range,
      Matrix.det_succ_row_zero]
    refine Finset.sum_congr rfl fun j _ => ?_
    rw [dif_pos j.2]
    rfl

theorem Determinant_eq_det_of_le (N : ℕ) (M : TMatrix) (hN : 2 ≤ N) :
    Determinant N M = (toMatrix N N M).det := by
  obtain ⟨n, rfl⟩ : ∃ n, N = n + 2 := ⟨N - 2, by omega⟩
  exact Determinant_eq_det n M

/-- Claim C8: for every `N ≥ 2`, `Determinant` (first-row cofactor expansion down to the
closed 2 by 2 form) is the determinant of the matrix, that is the Leibniz sum over
permutations. -/
theorem Determinant_correct (N : ℕ) (M : TMatrix) (hN : 2 ≤ N) :
    Determinant N M = (toMatrix N N M).det
    ∧ Determinant N M
      = ∑ σ : Equiv.Perm (Fin N), ((Equiv.Perm.sign σ : ℤ) : ℚ) * ∏ i : Fin N, M (σ i) i := by
  obtain ⟨n, rfl⟩ : ∃ n, N = n + 2 := ⟨N - 2, by omega⟩
  refine ⟨Determinant_eq_det n M, ?_⟩
  rw [Determinant_eq_det n M, Matrix.det_apply']
  rfl

/-- The determinant at `N = 3`, on the matrix with entries `i * j + 1`. -/
theorem Determinant_correct_witness :
    2 ≤ 3
    ∧ Determinant 3 (fun i j => (i : ℚ) * j + 1)
        = (toMatrix 3 3 (fun i j => (i : ℚ) * j + 1)).det
    ∧ Determinant 3 (fun i j => (i : ℚ) * j + 1)
      = ∑ σ : Equiv.Perm (Fin 3), ((Equiv.Perm.sign σ : ℤ) : ℚ)
          * ∏ i : Fin 3, (fun i j : ℕ => (i : ℚ) * j + 1) (σ i) i :=
  ⟨by decide, Determinant_correct 3 (fun i j => (i : ℚ) * j + 1) (by decide)⟩

theorem minorDeterminant_eq (n : ℕ) (inp out : TMatrix) (i j : ℕ) (hi : i < n + 3)
    (hj : j < n + 3) :
    Determinant (n + 2) (MinorMatrix (n + 3) inp out i j)
      = ((toMatrix (n + 3) (n + 3) inp).submatrix
          (Fin.succAbove ⟨i, hi⟩) (Fin.succAbove ⟨j, hj⟩)).det := by
  rw [Determinant_eq_det, toMatrix_MinorMatrix (n + 2) inp out i j hi hj]

theorem setMat_setMat (m : TMatrix) (i j : ℕ) (x y : ℚ) :
    setMat (setMat m i j x) i j y = setMat m i j y := by
  funext a b
  simp only [setMat_apply]
  by_cases h : a = i ∧ b = j
  · simp [h]
  · simp [h]

/-- One pass of the body of the cofactor loop. -/
theorem cofactor_step (n : ℕ) (inp : TMatrix) (i j : ℕ) (hi : i < n + 3) (hj : j < n + 3)
    (st2 : ℚ × TMatrix × TMatrix) :
    (let minor := MinorMatrix (n + 3) inp st2.2.2 i j
     let cofactors := setMat st2.2.1 i j (Determinant (n + 3 - 1) minor)
     let cofactors :=
       if (i + j) % 2 = 1 then setMat cofactors i j (cofactors i j * (-1)) else cofactors
     let determinant := if i = 0 then st2.1 + inp i j * cofactors i j else st2.1
     ((determinant, cofactors, minor) : ℚ × TMatrix × TMatrix))
      = (if i = 0 then st2.1 + inp i j * cofactorEntry (n + 3) inp i j else st2.1,
         setMat st2.2.1 i j (cofactorEntry (n + 3) inp i j),
         MinorMatrix (n + 3) inp st2.2.2 i j) := by
  have hd : Determinant (n + 3 - 1) (MinorMatrix (n + 3) inp st2.2.2 i j)
      = Determinant (n + 3 - 1) (MinorMatrix (n + 3) inp uninitMatrix i j) := by
    show Determinant (n + 2) _ = Determinant (n + 2) _
    rw [minorDeterminant_eq n inp _ i j hi hj, minorDeterminant_eq n inp _ i j hi hj]
  simp only [hd, cofactorEntry]
  by_cases hodd : (i + j) % 2 = 1
  · simp only [hodd, if_true, setMat_setMat]
    have e : setMat st2.2.1 i j (Determinant (n + 3 - 1) (MinorMatrix (n + 3) inp uninitMatrix i j))
        i j * (-1)
        = -1 * Determinant (n + 3 - 1) (MinorMatrix (n + 3) inp uninitMatrix i j) := by
      rw [setMat_apply, if_pos ⟨rfl, rfl⟩]; ring
    rw [e]
    simp only [setMat_apply, and_self, if_true]
  · simp only [hodd, if_false, one_mul, setMat_apply, and_self, if_true]

/-- A doubly nested loop whose body fills entry `(i, j)` of a matrix with `C i j` and, in
row 0, adds `f j * C 0 j` to an accumulator. -/
theorem accumulate_fill_loop (N : ℕ) (f : ℕ → ℚ) (C : ℕ → ℕ → ℚ)
    (body : ℕ → ℕ → ℚ × TMatrix × TMatrix → ℚ × TMatrix × TMatrix)
    (hbody : ∀ i j, i < N → j < N → ∀ st,
      (body i j st).1 = (if i = 0 then st.1 + f j * C i j else st.1)
      ∧ (body i j st).2.1 = setMat st.2.1 i j (C i j))
    (init : ℚ × TMatrix × TMatrix) (h0 : init.1 = 0) (hN : 0 < N) :
    (forUpTo N (fun i st => forUpTo N (fun j st2 => body i j st2) st) init).1
        = ∑ j in Finset.range N, f j * C 0 j
    ∧ ∀ a b, a < N → b < N →
        (forUpTo N (fun i st => forUpTo N (fun j st2 => body i j st2) st) init).2.1 a b
          = C a b := by
  have inner : ∀ m, m ≤ N → ∀ i, i < N → ∀ st : ℚ × TMatrix × TMatrix,
      (forUpTo m (fun j st2 => body i j st2) st).1
          = (if i = 0 then st.1 + ∑ j in Finset.range m, f j * C 0 j else st.1)
      ∧ (forUpTo m (fun j st2 => body i j st2) st).2.1
          = fun a b => if a = i ∧ b < m then C a b else st.2.1 a b := by
    intro m
    induction m with
    | zero =>
      intro _ i _ st
      refine ⟨by simp [forUpTo], ?_⟩
      funext a b
      simp [forUpTo]
    | succ m ih =>
      intro hm i hi st
      obtain ⟨ih1, ih2⟩ := ih (by omega) i hi st
      obtain ⟨b1, b2⟩ := hbody i m hi (by omega) (forUpTo m (fun j st2 => body i j st2) st)
      simp only [forUpTo]
      refine ⟨?_, ?_⟩
      · rw [b1, ih1]
        by_cases hi0 : i = 0
        · subst hi0
          simp only [if_true, Finset.sum_range_succ]
          ring
        · simp only [hi0, if_false]
      · rw [b2, ih2]
        funext a b
        by_cases hab : a = i ∧ b = m
        · obtain ⟨ha, hb⟩ := hab
          subst ha; subst hb
          simp [setMat_apply]
        · have e : (a = i ∧ b < m + 1) ↔ (a = i ∧ b < m) := by omega
          simp [setMat_apply, hab, e]
  have outer : ∀ m, m ≤ N →
      (forUpTo m (fun i st => forUpTo N (fun j st2 => body i j st2) st) init).1
          = (if 0 < m then ∑ j in Finset.range N, f j * C 0 j else 0)
      ∧ (forUpTo m (fun i st => forUpTo N (fun j st2 => body i j st2) st) init).2.1
          = fun a b => if a < m ∧ b < N then C a b else init.2.1 a b := by
    intro m
    induction m with
    | zero =>
      intro _
      refine ⟨by simpa [forUpTo] using h0, ?_⟩
      funext a b
      simp [forUpTo]
    | succ m ih =>
      intro hm
      obtain ⟨ih1, ih2⟩ := ih (by omega)
      obtain ⟨i1, i2⟩ := inner N (le_refl _) m (by omega)
        (forUpTo m (fun i st => forUpTo N (fun j st2 => body i j st2) st) init)
      simp only [forUpTo]
      refine ⟨?_, ?_⟩
      · rw [i1, ih1]
        by_cases hm0 : m = 0
        · subst hm0; simp
        · have : 0 < m := by omega
          simp [hm0, this]
      · rw [i2, ih2]
        funext a b
        by_cases ha : a = m
        · subst ha; simp
        · have e : a < m + 1 ↔ a < m := by omega
          simp [ha, e]
  obtain ⟨o1, o2⟩ := outer N (le_refl _)
  refine ⟨by rw [o1, if_pos hN], ?_⟩
  intro a b ha hb
  rw [o2]
  simp only [ha, hb, and_self, if_true]

/-- What the cofactor loop of the generic `InvertMatrix<N>`, `N ≥ 3`, computes. -/
theorem cofactorLoop_spec (n : ℕ) (inp : TMatrix) :
    (cofactorLoop (n + 3) inp).1
        = ∑ j in Finset.range (n + 3), inp 0 j * cofactorEntry (n + 3) inp 0 j
    ∧ ∀ a b, a < n + 3 → b < n + 3 →
        (cofactorLoop (n + 3) inp).2.1 a b = cofactorEntry (n + 3) inp a b := by
  unfold cofactorLoop
  refine accumulate_fill_loop (n + 3) (fun j => inp 0 j) (cofactorEntry (n + 3) inp) _ ?_ _ rfl
    (Nat.succ_pos _)
  intro i j hi hj st
  rw [cofactor_step n inp i j hi hj st]
  refine ⟨?_, rfl⟩
  by_cases hi0 : i = 0
  · subst hi0; simp
  · simp [hi0]

theorem cofactorEntry_eq_adjugate (n : ℕ) (inp : TMatrix) (a b : ℕ) (ha : a < n + 3)
    (hb : b < n + 3) :
    cofactorEntry (n + 3) inp a b
      = Matrix.adjugate (toMatrix (n + 3) (n + 3) inp) ⟨b, hb⟩ ⟨a, ha⟩ := by
  rw [Matrix.adjugate_fin_succ_eq_det_submatrix]
  unfold cofactorEntry
  show _ * Determinant (n + 2) _ = _
  rw [minorDeterminant_eq n inp _ a b ha hb, neg_one_pow_eq_ite]

/-- The determinant accumulated from row 0 of the cofactor matrix is the determinant. -/
theorem cofactorLoop_determinant (n : ℕ) (inp : TMatrix) :
    (cofactorLoop (n + 3) inp).1 = (toMatrix (n + 3) (n + 3) inp).det := by
  rw [(cofactorLoop_spec n inp).1, Finset.sum_range, Matrix.det_succ_row_zero]
  refine Finset.sum_congr rfl fun j _ => ?_
  unfold cofactorEntry
  show _ * (_ * Determinant (n + 2) _) = _
  rw [minorDeterminant_eq n inp _ 0 j (Nat.succ_pos _) j.2, neg_one_pow_eq_ite, Nat.zero_add]
  have e : (⟨0, Nat.succ_pos _⟩ : Fin (n + 3)).succAbove = Fin.succ := Fin.succAbove_zero
  rw [e]
  simp only [toMatrix, Matrix.of_apply, Fin.val_zero]
  ring

/-- The flag and the output of `InvertMatrix`, for every `N ≥ 2`: failure exactly when the
determinant is 0, leaving `out` as it was; on success the first `N` rows and columns of
`out` hold the adjugate divided by the determinant. -/
theorem InvertMatrix_spec (N : ℕ) (inp out : TMatrix) (hN : 2 ≤ N) :
    ((InvertMatrix N inp out).1 = false ↔ (toMatrix N N inp).det = 0)
    ∧ ((InvertMatrix N inp out).1 = false → (InvertMatrix N inp out).2 = out)
    ∧ ((InvertMatrix N inp out).1 = true →
        toMatrix N N (InvertMatrix N inp out).2
          = (toMatrix N N inp).det⁻¹ • Matrix.adjugate (toMatrix N N inp)) := by
  rcases Nat.lt_or_ge N 3 with h3 | h3
  · have h2 : N = 2 := by omega
    subst h2
    have hdet : Determinant 2 inp = (toMatrix 2 2 inp).det := Determinant_eq_det 0 inp
    unfold InvertMatrix
    simp only [if_true, hdet]
    by_cases hz : (toMatrix 2 2 inp).det = 0
    · simp [hz]
    · simp only [hz, if_false, false_iff, not_false_eq_true, true_and, forall_true_left]
      refine ⟨by simp, fun h => absurd h (by simp), ?_⟩
      rw [Matrix.adjugate_fin_two]
      ext i j
      fin_cases i <;> fin_cases j <;>
        simp [toMatrix, setMat_apply, div_eq_inv_mul, mul_comm]
  · obtain ⟨n, rfl⟩ : ∃ n, N = n + 3 := ⟨N - 3, by omega⟩
    have hne : ¬ (n + 3 = 2) := by omega
    have hdet := cofactorLoop_determinant n inp
    unfold InvertMatrix
    simp only [hne, if_false, hdet]
    by_cases hz : (toMatrix (n + 3) (n + 3) inp).det = 0
    · simp [hz]
    · simp only [hz, if_false, false_iff, not_false_eq_true, true_and, forall_true_left]
      refine ⟨by simp, fun h => absurd h (by simp), ?_⟩
      rw [forUpTo_setMat (n + 3) (n + 3)
        (fun _ _ y => y * (1 / (toMatrix (n + 3) (n + 3) inp).det))]
      ext a b
      simp only [toMatrix, Matrix.of_apply, Matrix.smul_apply, smul_eq_mul]
      rw [if_pos ⟨a.2, b.2⟩, TransposeMatrix_apply, if_pos ⟨a.2, b.2⟩,
        (cofactorLoop_spec n inp).2 b a b.2 a.2, cofactorEntry_eq_adjugate n inp b a b.2 a.2]
      simp only [toMatrix, Fin.eta]
      rw [one_div, mul_comm]

theorem InvertMatrix_two_sided (N : ℕ) (M out : TMatrix) (hN : 2 ≤ N)
    (hok : (InvertMatrix N M out).1 = true) :
    toMatrix N N M * toMatrix N N (InvertMatrix N M out).2 = 1
    ∧ toMatrix N N (InvertMatrix N M out).2 * toMatrix N N M = 1 := by
  obtain ⟨hflag, _, hout⟩ := InvertMatrix_spec N M out hN
  have hdet : (toMatrix N N M).det ≠ 0 := by
    intro hz
    rw [hflag.mpr hz] at hok
    exact Bool.false_ne_true hok
  rw [hout hok]
  refine ⟨?_, ?_⟩
  · rw [Matrix.mul_smul, Matrix.mul_adjugate, smul_smul, inv_mul_cancel₀ hdet, one_smul]
  · rw [Matrix.smul_mul, Matrix.adjugate_mul, smul_smul, inv_mul_cancel₀ hdet, one_smul]

/-- Claim C7: for every `N ≥ 2`, on both the closed 2 by 2 path and the cofactor path,
when `InvertMatrix` returns true the output is a two-sided inverse of the input. -/
theorem InvertMatrix_correct (N : ℕ) (M out : TMatrix) (hN : 2 ≤ N)
    (hok : (InvertMatrix N M out).1 = true) :
    toMatrix N N M * toMatrix N N (InvertMatrix N M out).2 = 1
    ∧ toMatrix N N (InvertMatrix N M out).2 * toMatrix N N M = 1 :=
  InvertMatrix_two_sided N M out hN hok

/-- Claim C9: for every `N ≥ 2`, `InvertMatrix` returns false exactly when `Determinant`
of the input is 0; on the generic path the determinant accumulated from row 0 of the
cofactor matrix is that same value. -/
theorem InvertMatrix_fails_iff (N : ℕ) (M out : TMatrix) (hN : 2 ≤ N) :
    ((InvertMatrix N M out).1 = false ↔ Determinant N M = 0)
    ∧ (3 ≤ N → (cofactorLoop N M).1 = Determinant N M) := by
  refine ⟨?_, ?_⟩
  · rw [Determinant_eq_det_of_le N M hN]
    exact (InvertMatrix_spec N M out hN).1
  · intro h3
    obtain ⟨n, rfl⟩ : ∃ n, N = n + 3 := ⟨N - 3, by omega⟩
    rw [cofactorLoop_determinant, Determinant_eq_det (n + 1)]

theorem InvertMatrix_flag_true (N : ℕ) (M out : TMatrix) (hN : 2 ≤ N)
    (hdet : (toMatrix N N M).det ≠ 0) : (InvertMatrix N M out).1 = true := by
  cases h : (InvertMatrix N M out).1 with
  | true => rfl
  | false => exact absurd ((InvertMatrix_spec N M out hN).1.mp h) hdet

/-! ## Solving for the coefficients -/

/-- The three outcomes of `CalculateCoefficients`: the object is returned as it was; the
flag is that of `InvertMatrix` on the decompressed matrix; on failure `coefficients` is
untouched, on success its first `D + 1` entries are the rows of the inverse times `m_ATY`. -/
theorem CalculateCoefficients_spec (D : ℕ) (f : COnlineLeastSquaresFitter) (c0 : TVector) :
    (COnlineLeastSquaresFitter.CalculateCoefficients D f c0).1 = f
    ∧ (COnlineLeastSquaresFitter.CalculateCoefficients D f c0).2.1
        = (InvertMatrix (D + 1)
            (COnlineLeastSquaresFitter.DecompressATAMatrix D f uninitMatrix).2 uninitMatrix).1
    ∧ ((COnlineLeastSquaresFitter.CalculateCoefficients D f c0).2.1 = false →
        (COnlineLeastSquaresFitter.CalculateCoefficients D f c0).2.2 = c0)
    ∧ ((COnlineLeastSquaresFitter.CalculateCoefficients D f c0).2.1 = true →
        (COnlineLeastSquaresFitter.CalculateCoefficients D f c0).2.2
          = fun i => if i < D + 1 then
              ∑ k in Finset.range (D + 1),
                (InvertMatrix (D + 1)
                  (COnlineLeastSquaresFitter.DecompressATAMatrix D f uninitMatrix).2
                  uninitMatrix).2 i k * f.m_ATY k
            else c0 i) := by
  unfold COnlineLeastSquaresFitter.CalculateCoefficients
  simp only [(DecompressATAMatrix_spec D f uninitMatrix).1]
  cases h : (InvertMatrix (D + 1)
      (COnlineLeastSquaresFitter.DecompressATAMatrix D f uninitMatrix).2 uninitMatrix).1 with
  | false => simp
  | true =>
    simp only [Bool.not_true, Bool.false_eq_true, if_false, true_and, forall_true_left]
    refine ⟨fun h2 => absurd h2 (by simp), ?_⟩
    rw [forUpTo_fillVec]
    funext i
    by_cases hi : i < D + 1
    · simp only [hi, if_true, DotProduct_eq_sum]
    · simp only [hi, if_false]

/-- Claim C10: `CalculateCoefficients` returns the object unchanged, whether it succeeds
or fails, so `m_ATY` and `m_ATACompressed` are as before; a second call right after the
first returns the same flag and the same coefficients. -/
theorem CalculateCoefficients_read_only (D : ℕ) (f : COnlineLeastSquaresFitter)
    (c0 : TVector) :
    (COnlineLeastSquaresFitter.CalculateCoefficients D f c0).1.m_ATY = f.m_ATY
    ∧ (COnlineLeastSquaresFitter.CalculateCoefficients D f c0).1.m_ATACompressed
        = f.m_ATACompressed
    ∧ COnlineLeastSquaresFitter.CalculateCoefficients D
          (COnlineLeastSquaresFitter.CalculateCoefficients D f c0).1
          (COnlineLeastSquaresFitter.CalculateCoefficients D f c0).2.2
        = COnlineLeastSquaresFitter.CalculateCoefficients D f c0
    ∧ ∀ c1 : TVector,
        (COnlineLeastSquaresFitter.CalculateCoefficients D
            (COnlineLeastSquaresFitter.CalculateCoefficients D f c0).1 c1).2.1
          = (COnlineLeastSquaresFitter.CalculateCoefficients D f c0).2.1
        ∧ ((COnlineLeastSquaresFitter.CalculateCoefficients D f c0).2.1 = true →
            ∀ i, i ≤ D →
              (COnlineLeastSquaresFitter.CalculateCoefficients D
                (COnlineLeastSquaresFitter.CalculateCoefficients D f c0).1 c1).2.2 i
              = (COnlineLeastSquaresFitter.CalculateCoefficients D f c0).2.2 i) := by
  obtain ⟨h1, h2, h3, h4⟩ := CalculateCoefficients_spec D f c0
  rw [h1]
  refine ⟨rfl, rfl, ?_, ?_⟩
  · obtain ⟨k1, k2, k3, k4⟩ := CalculateCoefficients_spec D f
      (COnlineLeastSquaresFitter.CalculateCoefficients D f c0).2.2
    refine Prod.ext (k1.trans h1.symm) (Prod.ext (k2.trans h2.symm) ?_)
    cases hflag : (COnlineLeastSquaresFitter.CalculateCoefficients D f c0).2.1 with
    | false => exact k3 (by rw [k2, ← h2, hflag])
    | true =>
      rw [k4 (by rw [k2, ← h2, hflag]), h4 hflag]
      funext i
      by_cases hi : i < D + 1
      · simp only [hi, if_true]
      · simp only [hi, if_false]
  · intro c1
    obtain ⟨_, k2, _, k4⟩ := CalculateCoefficients_spec D f c1
    refine ⟨k2.trans h2.symm, ?_⟩
    intro hflag i hi
    rw [k4 (by rw [k2, ← h2, hflag]), h4 hflag]
    have hi2 : i < D + 1 := by omega
    simp only [hi2, if_true]

/-- On success the coefficients solve the normal equations of the ingested points. -/
theorem coefficients_normal_equations (D : ℕ) (hD : 1 ≤ D) (f : COnlineLeastSquaresFitter)
    (pts : List (ℚ × ℚ)) (hs : Summarises D f pts) (c0 : TVector)
    (hok : (COnlineLeastSquaresFitter.CalculateCoefficients D f c0).2.1 = true) :
    ∀ i, i ≤ D →
      ∑ k in Finset.range (D + 1),
        powerSum pts (i + k) * (COnlineLeastSquaresFitter.CalculateCoefficients D f c0).2.2 k
      = momentSum pts i := by
  obtain ⟨_, h2, _, h4⟩ := CalculateCoefficients_spec D f c0
  have hinv := (InvertMatrix_two_sided (D + 1) _ uninitMatrix (by omega) (h2 ▸ hok)).1
  intro i hi
  have hi2 : i < D + 1 := by omega
  rw [h4 hok]
  have hcomp := congrFun (congrArg (fun A => Matrix.mulVec A (toVector (D + 1) f.m_ATY)) hinv)
    ⟨i, hi2⟩
  simp only [Matrix.one_mulVec, ← Matrix.mulVec_mulVec] at hcomp
  simp only [Matrix.mulVec, Matrix.dotProduct, toMatrix, Matrix.of_apply, toVector] at hcomp
  rw [hs.1 i hi] at hcomp
  rw [← hcomp, Finset.sum_range]
  refine Finset.sum_congr rfl fun k _ => ?_
  rw [decompress_of_summarises D f pts hs uninitMatrix i k hi (by omega)]
  simp only [if_pos k.2]
  rw [Finset.sum_range]

theorem sum_pow_mul_residual (D : ℕ) (c : TVector) (i : ℕ) (pts : List (ℚ × ℚ)) :
    (pts.map fun p => p.1 ^ i * (evalPoly D c p.1 - p.2)).sum
      = ∑ k in Finset.range (D + 1), powerSum pts (i + k) * c k - momentSum pts i := by
  induction pts with
  | nil => simp [powerSum, momentSum]
  | cons q qs ih =>
    have e : q.1 ^ i * evalPoly D c q.1 = ∑ k in Finset.range (D + 1), q.1 ^ (i + k) * c k := by
      unfold evalPoly
      rw [Finset.mul_sum]
      exact Finset.sum_congr rfl fun k _ => by ring
    simp only [List.map_cons, List.sum_cons, ih, powerSum, momentSum, add_mul,
      Finset.sum_add_distrib]
    rw [← e]
    ring

theorem sum_residual_mul_change (D : ℕ) (c c2 : TVector) (pts : List (ℚ × ℚ)) :
    (pts.map fun p => (evalPoly D c p.1 - p.2) * (evalPoly D c2 p.1 - evalPoly D c p.1)).sum
      = ∑ i in Finset.range (D + 1),
          (c2 i - c i) * (pts.map fun p => p.1 ^ i * (evalPoly D c p.1 - p.2)).sum := by
  induction pts with
  | nil => simp
  | cons q qs ih =>
    have e : evalPoly D c2 q.1 - evalPoly D c q.1
        = ∑ i in Finset.range (D + 1), (c2 i - c i) * q.1 ^ i := by
      unfold evalPoly
      rw [← Finset.sum_sub_distrib]
      exact Finset.sum_congr rfl fun k _ => by ring
    simp only [List.map_cons, List.sum_cons, ih, mul_add, Finset.sum_add_distrib]
    rw [e, Finset.mul_sum]
    congr 1
    exact Finset.sum_congr rfl fun k _ => by ring

theorem sqResidual_expand (D : ℕ) (c c2 : TVector) (pts : List (ℚ × ℚ)) :
    sqResidual D c2 pts
      = sqResidual D c pts
        + 2 * (pts.map fun p =>
            (evalPoly D c p.1 - p.2) * (evalPoly D c2 p.1 - evalPoly D c p.1)).sum
        + (pts.map fun p => (evalPoly D c2 p.1 - evalPoly D c p.1) ^ 2).sum := by
  unfold sqResidual
  induction pts with
  | nil => simp
  | cons q qs ih =>
    simp only [List.map_cons, List.sum_cons, ih]
    ring

/-- A solution of the normal equations minimises the squared residual. -/
theorem normal_equations_optimal (D : ℕ) (c : TVector) (pts : List (ℚ × ℚ))
    (hne : ∀ i, i ≤ D →
      ∑ k in Finset.range (D + 1), powerSum pts (i + k) * c k = momentSum pts i)
    (c2 : TVector) : sqResidual D c pts ≤ sqResidual D c2 pts := by
  have hcross : (pts.map fun p =>
      (evalPoly D c p.1 - p.2) * (evalPoly D c2 p.1 - evalPoly D c p.1)).sum = 0 := by
    rw [sum_residual_mul_change]
    refine Finset.sum_eq_zero fun i hi => ?_
    have hi2 : i ≤ D := by have := Finset.mem_range.mp hi; omega
    rw [sum_pow_mul_residual, hne i hi2, sub_self, mul_zero]
  have hsq : 0 ≤ (pts.map fun p => (evalPoly D c2 p.1 - evalPoly D c p.1) ^ 2).sum := by
    refine List.sum_nonneg fun x hx => ?_
    obtain ⟨q, _, rfl⟩ := List.mem_map.mp hx
    exact sq_nonneg _
  rw [sqResidual_expand D c c2 pts, hcross]
  linarith

/-- Claim C2: for every degree `D ≥ 1` and every fitter that has ingested an initial batch
and further points, whenever `CalculateCoefficients` reports success the returned
coefficients minimise the squared residual over the ingested points. -/
theorem least_squares_optimal (D : ℕ) (batch more : List (ℚ × ℚ))
    (raw f0 : COnlineLeastSquaresFitter) (c0 : TVector) (hD : 1 ≤ D)
    (hf0 : COnlineLeastSquaresFitter.construct D batch.length (pointList batch) raw = some f0)
    (hok : (COnlineLeastSquaresFitter.CalculateCoefficients D (addAll D f0 more) c0).2.1 = true) :
    ∀ c2 : TVector,
      sqResidual D (COnlineLeastSquaresFitter.CalculateCoefficients D (addAll D f0 more) c0).2.2
          (batch ++ more)
        ≤ sqResidual D c2 (batch ++ more) := by
  have hN : D + 1 ≤ batch.length := by
    by_contra hlt
    unfold COnlineLeastSquaresFitter.construct at hf0
    rw [if_neg hlt] at hf0
    exact Option.noConfusion hf0
  obtain ⟨f, hf, hs⟩ := construct_summarises D batch raw hN
  have hff : f = f0 := Option.some.inj (hf.symm.trans hf0)
  subst hff
  have hs2 := addAll_summarises D more f batch hs
  intro c2
  exact normal_equations_optimal D _ (batch ++ more)
    (coefficients_normal_equations D hD _ _ hs2 c0 hok) c2

/-! ## When the normal equations can be solved -/

theorem toMatrix_decompress (D : ℕ) (f : COnlineLeastSquaresFitter) (pts : List (ℚ × ℚ))
    (hs : Summarises D f pts) (g : TMatrix) :
    toMatrix (D + 1) (D + 1) (COnlineLeastSquaresFitter.DecompressATAMatrix D f g).2
      = gramMatrix D pts := by
  ext i k
  simp only [toMatrix, gramMatrix, Matrix.of_apply]
  exact decompress_of_summarises D f pts hs g i k (by omega) (by omega)

theorem sum_pow_mul_eval (D : ℕ) (w : TVector) (i : ℕ) (pts : List (ℚ × ℚ)) :
    (pts.map fun p => p.1 ^ i * evalPoly D w p.1).sum
      = ∑ k in Finset.range (D + 1), powerSum pts (i + k) * w k := by
  induction pts with
  | nil => simp [powerSum]
  | cons q qs ih =>
    have e : q.1 ^ i * evalPoly D w q.1 = ∑ k in Finset.range (D + 1), q.1 ^ (i + k) * w k := by
      unfold evalPoly
      rw [Finset.mul_sum]
      exact Finset.sum_congr rfl fun k _ => by ring
    simp only [List.map_cons, List.sum_cons, ih, powerSum, add_mul, Finset.sum_add_distrib]
    rw [← e]

theorem sum_sq_eval (D : ℕ) (w : TVector) (pts : List (ℚ × ℚ)) :
    (pts.map fun p => (evalPoly D w p.1) ^ 2).sum
      = ∑ i in Finset.range (D + 1), w i * (pts.map fun p => p.1 ^ i * evalPoly D w p.1).sum := by
  induction pts with
  | nil => simp
  | cons q qs ih =>
    have e : (evalPoly D w q.1) ^ 2
        = ∑ i in Finset.range (D + 1), w i * (q.1 ^ i * evalPoly D w q.1) := by
      rw [sq]
      nth_rewrite 1 [evalPoly]
      rw [Finset.sum_mul]
      exact Finset.sum_congr rfl fun k _ => by ring
    simp only [List.map_cons, List.sum_cons, ih, mul_add, Finset.sum_add_distrib]
    rw [e]

theorem list_sum_sq_eq_zero (g : ℚ × ℚ → ℚ) (pts : List (ℚ × ℚ))
    (h : (pts.map fun p => (g p) ^ 2).sum = 0) : ∀ p, p ∈ pts → g p = 0 := by
  induction pts with
  | nil => intro p hp; cases hp
  | cons q qs ih =>
    simp only [List.map_cons, List.sum_cons] at h
    have h1 : 0 ≤ (g q) ^ 2 := sq_nonneg _
    have h2 : 0 ≤ (qs.map fun p => (g p) ^ 2).sum := by
      refine List.sum_nonneg fun x hx => ?_
      obtain ⟨r, _, rfl⟩ := List.mem_map.mp hx
      exact sq_nonneg _
    have h3 : (g q) ^ 2 = 0 := by linarith
    have h4 : (qs.map fun p => (g p) ^ 2).sum = 0 := by linarith
    intro p hp
    rcases List.mem_cons.mp hp with hpq | hpq
    · rw [hpq]; exact pow_eq_zero_iff (by norm_num) |>.mp h3
    · exact ih h4 p hpq

theorem gramMatrix_mulVec (D : ℕ) (pts : List (ℚ × ℚ)) (w : TVector) (i : Fin (D + 1)) :
    (gramMatrix D pts).mulVec (toVector (D + 1) w) i
      = (pts.map fun p => p.1 ^ (i : ℕ) * evalPoly D w p.1).sum := by
  rw [sum_pow_mul_eval, Finset.sum_range]
  rfl

theorem mem_xValues {pts : List (ℚ × ℚ)} {p : ℚ × ℚ} (hp : p ∈ pts) : p.1 ∈ xValues pts := by
  unfold xValues
  rw [List.mem_toFinset]
  exact List.mem_map.mpr ⟨p, hp, rfl⟩

/-- With at least `D + 1` distinct x-values the matrix of power sums is invertible. -/
theorem gramMatrix_det_ne_zero (D : ℕ) (pts : List (ℚ × ℚ))
    (hd : D + 1 ≤ (xValues pts).card) : (gramMatrix D pts).det ≠ 0 := by
  intro hdet
  obtain ⟨v, hv, hGv⟩ := Matrix.exists_mulVec_eq_zero_iff.mpr hdet
  have hw : toVector (D + 1) (fun i => if h : i < D + 1 then v ⟨i, h⟩ else 0) = v := by
    funext i
    simp [toVector, i.2]
  generalize (fun i => if h : i < D + 1 then v ⟨i, h⟩ else 0 : TVector) = w at hw
  have h1 : ∀ i : Fin (D + 1), (pts.map fun p => p.1 ^ (i : ℕ) * evalPoly D w p.1).sum = 0 := by
    intro i
    rw [← gramMatrix_mulVec, hw, hGv]
    rfl
  have h2 : (pts.map fun p => (evalPoly D w p.1) ^ 2).sum = 0 := by
    rw [sum_sq_eval]
    exact Finset.sum_eq_zero fun i hi =>
      mul_eq_zero_of_right _ (h1 ⟨i, Finset.mem_range.mp hi⟩)
  have h3 := list_sum_sq_eq_zero (fun p => evalPoly D w p.1) pts h2
  have hPeval : ∀ x, (∑ i in Finset.range (D + 1), Polynomial.monomial i (w i)).eval x
      = evalPoly D w x := by
    intro x
    simp [Polynomial.eval_finset_sum, evalPoly]
  have hPdeg : (∑ i in Finset.range (D + 1), Polynomial.monomial i (w i)).natDegree ≤ D :=
    Polynomial.natDegree_sum_le_of_forall_le _ _ fun i hi =>
      (Polynomial.natDegree_monomial_le _).trans (by have := Finset.mem_range.mp hi; omega)
  have hP0 : (∑ i in Finset.range (D + 1), Polynomial.monomial i (w i)) = 0 := by
    refine Polynomial.eq_zero_of_natDegree_lt_card_of_eval_eq_zero' _ (xValues pts) ?_
      (by omega)
    intro x hx
    rw [hPeval]
    unfold xValues at hx
    obtain ⟨p, hp, rfl⟩ := List.mem_map.mp (List.mem_toFinset.mp hx)
    exact h3 p hp
  apply hv
  funext i
  have hc := congrArg (fun Q : Polynomial ℚ => Q.coeff (i : ℕ)) hP0
  simp only [Polynomial.finset_sum_coeff, Polynomial.coeff_monomial, Polynomial.coeff_zero,
    Finset.sum_ite_eq', Finset.mem_range, i.2, if_true] at hc
  rw [← hw]
  exact hc

/-- With fewer than `D + 1` distinct x-values the matrix of power sums is singular. -/
theorem gramMatrix_det_eq_zero (D : ℕ) (pts : List (ℚ × ℚ))
    (hd : (xValues pts).card < D + 1) : (gramMatrix D pts).det = 0 := by
  apply Matrix.exists_mulVec_eq_zero_iff.mp
  have hmonic : (∏ s in xValues pts, (Polynomial.X - Polynomial.C s)).Monic :=
    Polynomial.monic_prod_of_monic _ _ fun s _ => Polynomial.monic_X_sub_C s
  have hdeg : (∏ s in xValues pts, (Polynomial.X - Polynomial.C s)).natDegree
      = (xValues pts).card := by
    rw [Polynomial.natDegree_prod_of_monic _ _ fun s _ => Polynomial.monic_X_sub_C s]
    simp
  refine ⟨toVector (D + 1) (∏ s in xValues pts, (Polynomial.X - Polynomial.C s)).coeff, ?_, ?_⟩
  · intro h
    have h1 := congrFun h ⟨(xValues pts).card, hd⟩
    have h2 := hmonic.coeff_natDegree
    rw [hdeg] at h2
    simp only [toVector, Pi.zero_apply] at h1
    rw [h2] at h1
    exact one_ne_zero h1
  · funext i
    rw [gramMatrix_mulVec]
    refine List.sum_eq_zero fun x hx => ?_
    obtain ⟨p, hp, rfl⟩ := List.mem_map.mp hx
    have he : evalPoly D (∏ s in xValues pts, (Polynomial.X - Polynomial.C s)).coeff p.1
        = (∏ s in xValues pts, (Polynomial.X - Polynomial.C s)).eval p.1 :=
      (Polynomial.eval_eq_sum_range' (by rw [hdeg]; exact hd) p.1).symm
    rw [he, Polynomial.eval_prod, Finset.prod_eq_zero (mem_xValues hp) (by simp)]
    simp

theorem solvable_of_distinct (D : ℕ) (hD : 1 ≤ D) (f : COnlineLeastSquaresFitter)
    (pts : List (ℚ × ℚ)) (hs : Summarises D f pts) (hd : D + 1 ≤ (xValues pts).card)
    (c0 : TVector) : (COnlineLeastSquaresFitter.CalculateCoefficients D f c0).2.1 = true := by
  rw [(CalculateCoefficients_spec D f c0).2.1]
  refine InvertMatrix_flag_true (D + 1) _ _ (by omega) ?_
  rw [toMatrix_decompress D f pts hs]
  exact gramMatrix_det_ne_zero D pts hd

theorem singular_of_few (D : ℕ) (hD : 1 ≤ D) (f : COnlineLeastSquaresFitter)
    (pts : List (ℚ × ℚ)) (hs : Summarises D f pts) (hd : (xValues pts).card < D + 1)
    (c0 : TVector) : (COnlineLeastSquaresFitter.CalculateCoefficients D f c0).2.1 = false := by
  rw [(CalculateCoefficients_spec D f c0).2.1]
  refine (InvertMatrix_spec (D + 1) _ _ (by omega)).1.mpr ?_
  rw [toMatrix_decompress D f pts hs]
  exact gramMatrix_det_eq_zero D pts hd

theorem summarises_of_construct (D : ℕ) (batch more : List (ℚ × ℚ))
    (raw f0 : COnlineLeastSquaresFitter)
    (hf0 : COnlineLeastSquaresFitter.construct D batch.length (pointList batch) raw = some f0) :
    Summarises D (addAll D f0 more) (batch ++ more) := by
  have hN : D + 1 ≤ batch.length := by
    by_contra hlt
    unfold COnlineLeastSquaresFitter.construct at hf0
    rw [if_neg hlt] at hf0
    exact Option.noConfusion hf0
  obtain ⟨f, hf, hs⟩ := construct_summarises D batch raw hN
  have hff : f = f0 := Option.some.inj (hf.symm.trans hf0)
  subst hff
  exact addAll_summarises D more f batch hs

/-- Claim C4: for every degree `D ≥ 1`, a fitter whose ingested points (initial batch plus
added points) take fewer than `D + 1` distinct x-values has `CalculateCoefficients`
report failure. -/
theorem singularity_detected (D : ℕ) (batch more : List (ℚ × ℚ))
    (raw f0 : COnlineLeastSquaresFitter) (c0 : TVector) (hD : 1 ≤ D)
    (hf0 : COnlineLeastSquaresFitter.construct D batch.length (pointList batch) raw = some f0)
    (hfew : (xValues (batch ++ more)).card < D + 1) :
    (COnlineLeastSquaresFitter.CalculateCoefficients D (addAll D f0 more) c0).2.1 = false :=
  singular_of_few D hD _ _ (summarises_of_construct D batch more raw f0 hf0) hfew c0

/-- The spec's example of a singular system: degree 2 built from `(1,5), (1,7), (1,9)`
fails. -/
theorem singularity_detected_witness :
    1 ≤ 2
    ∧ (xValues ([((1 : ℚ), (5 : ℚ)), (1, 7), (1, 9)] ++ [])).card < 2 + 1
    ∧ ∃ f0, COnlineLeastSquaresFitter.construct 2 [((1 : ℚ), (5 : ℚ)), (1, 7), (1, 9)].length
          (pointList [(1, 5), (1, 7), (1, 9)]) ⟨fun _ => 0, fun _ => 0⟩ = some f0
        ∧ (COnlineLeastSquaresFitter.CalculateCoefficients 2 (addAll 2 f0 []) (fun _ => 0)).2.1
            = false := by
  have hx : (xValues ([((1 : ℚ), (5 : ℚ)), (1, 7), (1, 9)] ++ [])).card < 2 + 1 := by
    simp [xValues]
  obtain ⟨f0, hf0, _⟩ := construct_summarises 2 [((1 : ℚ), (5 : ℚ)), (1, 7), (1, 9)]
    ⟨fun _ => 0, fun _ => 0⟩ (by decide)
  exact ⟨by decide, hx, f0, hf0,
    singularity_detected 2 [(1, 5), (1, 7), (1, 9)] [] ⟨fun _ => 0, fun _ => 0⟩ f0 (fun _ => 0)
      (by decide) hf0 hx⟩

/-- The solution of the normal equations is unique when the matrix is invertible. -/
theorem coefficients_eq_of_fit (D : ℕ) (a c : TVector) (pts : List (ℚ × ℚ))
    (hdet : (gramMatrix D pts).det ≠ 0)
    (hfit : ∀ p, p ∈ pts → p.2 = evalPoly D a p.1)
    (hne : ∀ i, i ≤ D →
      ∑ k in Finset.range (D + 1), powerSum pts (i + k) * c k = momentSum pts i) :
    ∀ i, i ≤ D → c i = a i := by
  have hmom : ∀ i, momentSum pts i = ∑ k in Finset.range (D + 1), powerSum pts (i + k) * a k := by
    intro i
    rw [← sum_pow_mul_eval]
    unfold momentSum
    refine congrArg List.sum (List.map_congr_left fun p hp => ?_)
    rw [hfit p hp]
  have hzero : (gramMatrix D pts).mulVec (toVector (D + 1) c - toVector (D + 1) a) = 0 := by
    rw [Matrix.mulVec_sub]
    funext i
    simp only [Pi.sub_apply, Pi.zero_apply]
    rw [gramMatrix_mulVec, gramMatrix_mulVec, sum_pow_mul_eval, sum_pow_mul_eval,
      hne i (by omega), hmom, sub_self]
  have hv : toVector (D + 1) c - toVector (D + 1) a = 0 := by
    by_contra hv
    exact hdet (Matrix.exists_mulVec_eq_zero_iff.mp ⟨_, hv, hzero⟩)
  intro i hi
  have := congrFun hv ⟨i, by omega⟩
  simp only [toVector, Pi.sub_apply, Pi.zero_apply] at this
  exact sub_eq_zero.mp this

/-- Claim C3: for every degree `D ≥ 1`, a fitter built from exactly `D + 1` points with
pairwise distinct x-values that lie on the polynomial with coefficients `a 0, ..., a D`
has `CalculateCoefficients` succeed and return exactly those coefficients, so the fitted
polynomial passes through every input point. -/
theorem exact_fit_recovery (D : ℕ) (a : TVector) (pts : List (ℚ × ℚ))
    (raw : COnlineLeastSquaresFitter) (c0 : TVector) (hD : 1 ≤ D)
    (hlen : pts.length = D + 1) (hnd : (pts.map Prod.fst).Nodup)
    (hfit : ∀ p, p ∈ pts → p.2 = evalPoly D a p.1) :
    ∃ f, COnlineLeastSquaresFitter.construct D pts.length (pointList pts) raw = some f
      ∧ (COnlineLeastSquaresFitter.CalculateCoefficients D f c0).2.1 = true
      ∧ (∀ i, i ≤ D → (COnlineLeastSquaresFitter.CalculateCoefficients D f c0).2.2 i = a i)
      ∧ ∀ p, p ∈ pts →
          evalPoly D (COnlineLeastSquaresFitter.CalculateCoefficients D f c0).2.2 p.1 = p.2 := by
  obtain ⟨f, hf, hs⟩ := construct_summarises D pts raw (by omega)
  have hcard : D + 1 ≤ (xValues pts).card := by
    unfold xValues
    rw [List.toFinset_card_of_nodup hnd, List.length_map, hlen]
  have hok := solvable_of_distinct D hD f pts hs hcard c0
  have hc := coefficients_eq_of_fit D a _ pts (gramMatrix_det_ne_zero D pts hcard) hfit
    (coefficients_normal_equations D hD f pts hs c0 hok)
  refine ⟨f, hf, hok, hc, ?_⟩
  intro p hp
  rw [hfit p hp]
  unfold evalPoly
  exact Finset.sum_congr rfl fun i hi => by
    rw [hc i (by have := Finset.mem_range.mp hi; omega)]

/-- The spec's two examples of an exact fit: `(1,2), (2,4)` at degree 1 gives `[0, 2]`, and
`(1,5), (2,16), (3,31), (4,16)` at degree 3 succeeds and reproduces the four points. -/
theorem exact_fit_recovery_witness :
    (1 ≤ 1 ∧ [((1 : ℚ), (2 : ℚ)), (2, 4)].length = 1 + 1
      ∧ ([((1 : ℚ), (2 : ℚ)), (2, 4)].map Prod.fst).Nodup
      ∧ (∀ p, p ∈ [((1 : ℚ), (2 : ℚ)), (2, 4)] →
          p.2 = evalPoly 1 (fun i => if i = 1 then 2 else 0) p.1)
      ∧ ∃ f, COnlineLeastSquaresFitter.construct 1 [((1 : ℚ), (2 : ℚ)), (2, 4)].length
            (pointList [(1, 2), (2, 4)]) ⟨fun _ => 0, fun _ => 0⟩ = some f
          ∧ (COnlineLeastSquaresFitter.CalculateCoefficients 1 f (fun _ => 0)).2.1 = true
          ∧ (∀ i, i ≤ 1 → (COnlineLeastSquaresFitter.CalculateCoefficients 1 f (fun _ => 0)).2.2 i
              = (fun i => if i = 1 then (2 : ℚ) else 0) i)
          ∧ ∀ p, p ∈ [((1 : ℚ), (2 : ℚ)), (2, 4)] →
              evalPoly 1 (COnlineLeastSquaresFitter.CalculateCoefficients 1 f (fun _ => 0)).2.2 p.1
                = p.2)
    ∧ ∃ f, COnlineLeastSquaresFitter.construct 3
          [((1 : ℚ), (5 : ℚ)), (2, 16), (3, 31), (4, 16)].length
          (pointList [(1, 5), (2, 16), (3, 31), (4, 16)]) ⟨fun _ => 0, fun _ => 0⟩ = some f
        ∧ (COnlineLeastSquaresFitter.CalculateCoefficients 3 f (fun _ => 0)).2.1 = true
        ∧ (∀ i, i ≤ 3 → (COnlineLeastSquaresFitter.CalculateCoefficients 3 f (fun _ => 0)).2.2 i
            = (fun i => if i = 0 then (32 : ℚ) else if i = 1 then -172 / 3
                else if i = 2 then 36 else if i = 3 then -17 / 3 else 0) i)
        ∧ ∀ p, p ∈ [((1 : ℚ), (5 : ℚ)), (2, 16), (3, 31), (4, 16)] →
            evalPoly 3 (COnlineLeastSquaresFitter.CalculateCoefficients 3 f (fun _ => 0)).2.2 p.1
              = p.2 := by
  have h1 : ∀ p, p ∈ [((1 : ℚ), (2 : ℚ)), (2, 4)] →
      p.2 = evalPoly 1 (fun i => if i = 1 then 2 else 0) p.1 := by
    intro p hp
    simp only [List.mem_cons, List.mem_singleton, List.not_mem_nil, or_false] at hp
    rcases hp with rfl | rfl
    · simp [evalPoly, Finset.sum_range_succ]
    · simp [evalPoly, Finset.sum_range_succ]
      norm_num
  have h3 : ∀ p, p ∈ [((1 : ℚ), (5 : ℚ)), (2, 16), (3, 31), (4, 16)] →
      p.2 = evalPoly 3 (fun i => if i = 0 then (32 : ℚ) else if i = 1 then -172 / 3
        else if i = 2 then 36 else if i = 3 then -17 / 3 else 0) p.1 := by
    intro p hp
    simp only [List.mem_cons, List.mem_singleton, List.not_mem_nil, or_false] at hp
    rcases hp with rfl | rfl | rfl | rfl <;> (simp [evalPoly, Finset.sum_range_succ]; norm_num)
  have n1 : ([((1 : ℚ), (2 : ℚ)), (2, 4)].map Prod.fst).Nodup := by simp
  have n3 : ([((1 : ℚ), (5 : ℚ)), (2, 16), (3, 31), (4, 16)].map Prod.fst).Nodup := by
    simp
  exact ⟨⟨le_refl 1, rfl, n1, h1,
      exact_fit_recovery 1 _ [(1, 2), (2, 4)] ⟨fun _ => 0, fun _ => 0⟩ (fun _ => 0) (le_refl 1)
        rfl n1 h1⟩,
    exact_fit_recovery 3 _ [(1, 5), (2, 16), (3, 31), (4, 16)] ⟨fun _ => 0, fun _ => 0⟩
      (fun _ => 0) (by decide) rfl n3 h3⟩

/-- Optimality at degree 1: two initial points, one added point off their line. -/
theorem least_squares_optimal_witness :
    1 ≤ 1
    ∧ ∃ f0, COnlineLeastSquaresFitter.construct 1 [((1 : ℚ), (2 : ℚ)), (2, 4)].length
          (pointList [(1, 2), (2, 4)]) ⟨fun _ => 0, fun _ => 0⟩ = some f0
        ∧ (COnlineLeastSquaresFitter.CalculateCoefficients 1 (addAll 1 f0 [(3, 7)])
            (fun _ => 0)).2.1 = true
        ∧ ∀ c2 : TVector,
            sqResidual 1 (COnlineLeastSquaresFitter.CalculateCoefficients 1
                (addAll 1 f0 [(3, 7)]) (fun _ => 0)).2.2 ([(1, 2), (2, 4)] ++ [(3, 7)])
              ≤ sqResidual 1 c2 ([(1, 2), (2, 4)] ++ [(3, 7)]) := by
  obtain ⟨f0, hf0, _⟩ := construct_summarises 1 [((1 : ℚ), (2 : ℚ)), (2, 4)]
    ⟨fun _ => 0, fun _ => 0⟩ (by decide)
  have hx : 1 + 1 ≤ (xValues ([((1 : ℚ), (2 : ℚ)), (2, 4)] ++ [(3, 7)])).card := by
    have e : xValues ([((1 : ℚ), (2 : ℚ)), (2, 4)] ++ [(3, 7)]) = {1, 2, 3} := by
      simp [xValues]
    rw [e]
    decide
  have hok := solvable_of_distinct 1 (le_refl 1) _ _
    (summarises_of_construct 1 [(1, 2), (2, 4)] [(3, 7)] _ f0 hf0) hx (fun _ => 0)
  exact ⟨le_refl 1, f0, hf0, hok,
    least_squares_optimal 1 [(1, 2), (2, 4)] [(3, 7)] ⟨fun _ => 0, fun _ => 0⟩ f0 (fun _ => 0)
      (le_refl 1) hf0 hok⟩

/-- The inverse on the cofactor path, `N = 3`, for the matrix with 2 on the diagonal and 1
elsewhere (determinant 4). -/
theorem InvertMatrix_correct_witness :
    2 ≤ 3
    ∧ (InvertMatrix 3 (fun i j => if i = j then 2 else 1) uninitMatrix).1 = true
    ∧ toMatrix 3 3 (fun i j => if i = j then 2 else 1)
        * toMatrix 3 3 (InvertMatrix 3 (fun i j => if i = j then 2 else 1) uninitMatrix).2 = 1
    ∧ toMatrix 3 3 (InvertMatrix 3 (fun i j => if i = j then 2 else 1) uninitMatrix).2
        * toMatrix 3 3 (fun i j => if i = j then 2 else 1) = 1 := by
  have hdet : (toMatrix 3 3 (fun i j => if i = j then 2 else 1)).det ≠ 0 := by
    simp [Matrix.det_fin_three, toMatrix]
    norm_num
  have hok := InvertMatrix_flag_true 3 (fun i j => if i = j then 2 else 1) uninitMatrix
    (by decide) hdet
  exact ⟨by decide, hok,
    InvertMatrix_correct 3 (fun i j => if i = j then 2 else 1) uninitMatrix (by decide) hok⟩

/-- The failure criterion at `N = 3`, for the matrix with 2 on the diagonal and 1
elsewhere. -/
theorem InvertMatrix_fails_iff_witness :
    2 ≤ 3
    ∧ ((InvertMatrix 3 (fun i j => if i = j then 2 else 1) uninitMatrix).1 = false
        ↔ Determinant 3 (fun i j => if i = j then 2 else 1) = 0)
    ∧ (3 ≤ 3 → (cofactorLoop 3 (fun i j => if i = j then 2 else 1)).1
        = Determinant 3 (fun i j => if i = j then 2 else 1)) :=
  ⟨by decide, InvertMatrix_fails_iff 3 (fun i j => if i = j then 2 else 1) uninitMatrix
    (by decide)⟩

/-! ## The size of the store -/

theorem ATACompressedStorageSize_closed (D : ℕ) : ATACompressedStorageSize D + 1 = 2 ^ (D + 1) := by
  induction D with
  | zero => rfl
  | succ D ih =>
    have h : ATACompressedStorageSize (D + 1) = ATACompressedStorageSize D * 2 + 1 := rfl
    rw [h, pow_succ]
    omega

/-- Claim C6 at degree 2: `ATACompressedStorageSize` gives 7 entries where the upper
triangle of a 3 by 3 matrix has `(2 + 1) * (2 + 2) / 2 = 6`, so the fitter holds 10 values
where the storage formula of the source comment gives 9. -/
theorem ATACompressedStorageSize_at_two :
    ATACompressedStorageSize 2 = 7
    ∧ (2 + 1) * (2 + 2) / 2 = 6
    ∧ ATACompressedStorageSize 2 ≠ (2 + 1) * (2 + 2) / 2
    ∧ rowStart 2 (2 + 1) = 6
    ∧ (2 + 1) + ATACompressedStorageSize 2 = 10 := by
  decide

/-! ## The shape of the store -/

/-- Every index below `rowStart D m` is the place of one upper-triangle entry. -/
theorem rowStart_surj (D : ℕ) (m a : ℕ) (ha : a < rowStart D m) :
    ∃ r j, r < m ∧ j < D + 1 - r ∧ a = rowStart D r + j := by
  induction m with
  | zero => exact absurd ha (Nat.not_lt_zero a)
  | succ m ih =>
    rw [rowStart_succ] at ha
    by_cases h : a < rowStart D m
    · obtain ⟨r, j, hr, hj, e⟩ := ih h
      exact ⟨r, j, by omega, hj, e⟩
    · exact ⟨m, a - rowStart D m, by omega, by omega, by omega⟩

theorem rowStart_add_lt (D r c : ℕ) (hrc : r ≤ c) (hc : c ≤ D) :
    rowStart D r + (c - r) < rowStart D (D + 1) := by
  have h := rowStart_mono D (show r + 1 ≤ D + 1 by omega)
  rw [rowStart_succ] at h
  omega

/-- Two stores are equal when they agree at the place of every upper-triangle entry and
from `rowStart D (D + 1)` on. -/
theorem store_ext (D : ℕ) (v w : TVector)
    (h1 : ∀ r c, r ≤ c → c ≤ D → v (rowStart D r + (c - r)) = w (rowStart D r + (c - r)))
    (h2 : ∀ a, rowStart D (D + 1) ≤ a → v a = w a) : v = w := by
  funext a
  by_cases ha : a < rowStart D (D + 1)
  · obtain ⟨r, j, hr, hj, e⟩ := rowStart_surj D (D + 1) a ha
    have e2 : a = rowStart D r + (r + j - r) := by omega
    rw [e2]
    exact h1 r (r + j) (by omega) (by omega)
  · exact h2 a (by omega)

theorem fitter_ext (f g : COnlineLeastSquaresFitter) (h1 : f.m_ATY = g.m_ATY)
    (h2 : f.m_ATACompressed = g.m_ATACompressed) : f = g := by
  cases f
  cases g
  simp only at h1 h2
  rw [h1, h2]

theorem two_mul_rowStart (D i : ℕ) (hi : i ≤ D + 1) :
    2 * rowStart D i + i * (i - 1) = 2 * i * (D + 1) := by
  induction i with
  | zero => simp [rowStart]
  | succ k ih =>
    have h := ih (by omega)
    obtain ⟨e, rfl⟩ : ∃ e, D = k + e := ⟨D - k, by omega⟩
    rw [rowStart_succ]
    have h1 : k + e + 1 - k = e + 1 := by omega
    rw [h1, Nat.add_sub_cancel]
    cases k with
    | zero => simp [rowStart]
    | succ k =>
      rw [Nat.add_sub_cancel] at h
      nlinarith [h]

/-- The store has `(D + 1) (D + 2) / 2` used entries. -/
theorem rowStart_total (D : ℕ) : rowStart D (D + 1) = (D + 1) * (D + 2) / 2 := by
  have h := two_mul_rowStart D (D + 1) (le_refl _)
  rw [Nat.add_sub_cancel] at h
  have h2 : 2 * rowStart D (D + 1) = (D + 1) * (D + 2) := by nlinarith [h]
  omega

/-- The place of row `i` in the store, as a closed expression. -/
theorem rowStart_formula (D i : ℕ) (hi : i ≤ D + 1) :
    rowStart D i = i * (D + 1) - i * (i - 1) / 2 := by
  have h := two_mul_rowStart D i hi
  have h2 : 2 * i * (D + 1) = 2 * (i * (D + 1)) := by ring
  rw [h2] at h
  omega

/-! ## Order of the added points -/

theorem AddDataPoint_comm (D : ℕ) (f : COnlineLeastSquaresFitter) (p q : TDataPoint) :
    COnlineLeastSquaresFitter.AddDataPoint D (COnlineLeastSquaresFitter.AddDataPoint D f p) q
      = COnlineLeastSquaresFitter.AddDataPoint D
          (COnlineLeastSquaresFitter.AddDataPoint D f q) p := by
  refine fitter_ext _ _ ?_ (store_ext D _ _ ?_ ?_)
  · funext i
    by_cases hi : i ≤ D
    · rw [(AddDataPoint_spec D _ q).1 i hi, (AddDataPoint_spec D f p).1 i hi,
        (AddDataPoint_spec D _ p).1 i hi, (AddDataPoint_spec D f q).1 i hi]
      ring
    · have hi2 : D < i := by omega
      rw [(AddDataPoint_spec D _ q).2.1 i hi2, (AddDataPoint_spec D f p).2.1 i hi2,
        (AddDataPoint_spec D _ p).2.1 i hi2, (AddDataPoint_spec D f q).2.1 i hi2]
  · intro r c hrc hc
    rw [(AddDataPoint_spec D _ q).2.2.2 r c hrc hc, (AddDataPoint_spec D f p).2.2.2 r c hrc hc,
      (AddDataPoint_spec D _ p).2.2.2 r c hrc hc, (AddDataPoint_spec D f q).2.2.2 r c hrc hc]
    ring
  · intro a ha
    rw [(AddDataPoint_spec D _ q).2.2.1 a ha, (AddDataPoint_spec D f p).2.2.1 a ha,
      (AddDataPoint_spec D _ p).2.2.1 a ha, (AddDataPoint_spec D f q).2.2.1 a ha]

/-- Claim C11: for every fitter state and every two points, adding them in either order
gives the same `m_ATY` and the same decompressed `ATA`; hence adding the points of a list
in any permuted order gives the same final `m_ATY` and `ATA`. -/
theorem AddDataPoint_order_independent (D : ℕ) (f : COnlineLeastSquaresFitter)
    (p q : TDataPoint) (g : TMatrix) :
    (COnlineLeastSquaresFitter.AddDataPoint D
        (COnlineLeastSquaresFitter.AddDataPoint D f p) q).m_ATY
      = (COnlineLeastSquaresFitter.AddDataPoint D
          (COnlineLeastSquaresFitter.AddDataPoint D f q) p).m_ATY
    ∧ (COnlineLeastSquaresFitter.DecompressATAMatrix D
        (COnlineLeastSquaresFitter.AddDataPoint D
          (COnlineLeastSquaresFitter.AddDataPoint D f p) q) g).2
      = (COnlineLeastSquaresFitter.DecompressATAMatrix D
          (COnlineLeastSquaresFitter.AddDataPoint D
            (COnlineLeastSquaresFitter.AddDataPoint D f q) p) g).2
    ∧ ∀ l1 l2 : List (ℚ × ℚ), l1.Perm l2 →
        (addAll D f l1).m_ATY = (addAll D f l2).m_ATY
        ∧ (COnlineLeastSquaresFitter.DecompressATAMatrix D (addAll D f l1) g).2
          = (COnlineLeastSquaresFitter.DecompressATAMatrix D (addAll D f l2) g).2 := by
  refine ⟨by rw [AddDataPoint_comm], by rw [AddDataPoint_comm], ?_⟩
  intro l1 l2 hperm
  have h : addAll D f l1 = addAll D f l2 := by
    unfold addAll
    exact List.Perm.foldl_eq' hperm (fun x _ y _ z => AddDataPoint_comm D z _ _) f
  rw [h]
  exact ⟨rfl, rfl⟩

/-! ## What construction and decompression leave -/

/-- Claim C12: after construction from `N ≥ D + 1` points the decompressed `ATA` has
`ATA[i][k] = Σ_j x_j ^ (i + k)` and `m_ATY[i] = Σ_j x_j ^ i * y_j` for all `i, k ≤ D`;
`x ^ 0` counts as 1 also for `x = 0`, so `ATA[0][0]` is the number of points. -/
theorem construct_power_sums (D NUM : ℕ) (data : TDataPointList)
    (raw : COnlineLeastSquaresFitter) (g : TMatrix) (hN : D + 1 ≤ NUM) :
    ∃ f, COnlineLeastSquaresFitter.construct D NUM data raw = some f
      ∧ (∀ i k, i ≤ D → k ≤ D →
          (COnlineLeastSquaresFitter.DecompressATAMatrix D f g).2 i k
            = ∑ p in Finset.range NUM, data p 0 ^ (i + k))
      ∧ (∀ i, i ≤ D → f.m_ATY i = ∑ p in Finset.range NUM, data p 0 ^ i * data p 1)
      ∧ (COnlineLeastSquaresFitter.DecompressATAMatrix D f g).2 0 0 = NUM := by
  obtain ⟨f, hf, h1, _, _, h4⟩ := construct_spec D NUM data raw hN
  have hdec : ∀ i k, i ≤ D → k ≤ D →
      (COnlineLeastSquaresFitter.DecompressATAMatrix D f g).2 i k
        = ∑ p in Finset.range NUM, data p 0 ^ (i + k) := by
    intro i k hi hk
    rw [(DecompressATAMatrix_spec D f g).2 i k, if_pos ⟨hi, hk⟩,
      h4 (min i k) (max i k) (le_trans (min_le_left i k) (le_max_left i k)) (max_le hi hk)]
    refine Finset.sum_congr rfl fun p _ => ?_
    rw [← pow_add]
    congr 1
    by_cases hik : i ≤ k
    · rw [min_eq_left hik, max_eq_right hik]
    · have hki : k ≤ i := by omega
      rw [min_eq_right hki, max_eq_left hki, add_comm]
  refine ⟨f, hf, hdec, h1, ?_⟩
  rw [hdec 0 0 (Nat.zero_le _) (Nat.zero_le _)]
  simp

/-- The constructor on the two points `(0, 1), (2, 3)` at degree 1. -/
theorem construct_power_sums_witness :
    1 + 1 ≤ 2
    ∧ ∃ f, COnlineLeastSquaresFitter.construct 1 2 (pointList [(0, 1), (2, 3)])
          ⟨fun _ => 0, fun _ => 0⟩ = some f
      ∧ (∀ i k, i ≤ 1 → k ≤ 1 →
          (COnlineLeastSquaresFitter.DecompressATAMatrix 1 f uninitMatrix).2 i k
            = ∑ p in Finset.range 2, pointList [(0, 1), (2, 3)] p 0 ^ (i + k))
      ∧ (∀ i, i ≤ 1 → f.m_ATY i
          = ∑ p in Finset.range 2,
              pointList [(0, 1), (2, 3)] p 0 ^ i * pointList [(0, 1), (2, 3)] p 1)
      ∧ (COnlineLeastSquaresFitter.DecompressATAMatrix 1 f uninitMatrix).2 0 0 = (2 : ℕ) :=
  ⟨by decide, construct_power_sums 1 2 (pointList [(0, 1), (2, 3)]) ⟨fun _ => 0, fun _ => 0⟩
    uninitMatrix (by decide)⟩

/-- Claim C13: whatever the store holds, the matrix produced by `DecompressATAMatrix` is
symmetric on the `(D + 1)` by `(D + 1)` block. -/
theorem DecompressATAMatrix_symmetric (D : ℕ) (f : COnlineLeastSquaresFitter) (g : TMatrix) :
    (toMatrix (D + 1) (D + 1)
        (COnlineLeastSquaresFitter.DecompressATAMatrix D f g).2).transpose
      = toMatrix (D + 1) (D + 1) (COnlineLeastSquaresFitter.DecompressATAMatrix D f g).2
    ∧ ∀ i j, i ≤ D → j ≤ D →
        (COnlineLeastSquaresFitter.DecompressATAMatrix D f g).2 i j
          = (COnlineLeastSquaresFitter.DecompressATAMatrix D f g).2 j i := by
  have h : ∀ i j, i ≤ D → j ≤ D →
      (COnlineLeastSquaresFitter.DecompressATAMatrix D f g).2 i j
        = (COnlineLeastSquaresFitter.DecompressATAMatrix D f g).2 j i := by
    intro i j hi hj
    rw [(DecompressATAMatrix_spec D f g).2 i j, (DecompressATAMatrix_spec D f g).2 j i,
      if_pos ⟨hi, hj⟩, if_pos ⟨hj, hi⟩, min_comm, max_comm]
  refine ⟨?_, h⟩
  ext i j
  simp only [Matrix.transpose_apply, toMatrix, Matrix.of_apply]
  exact h j i (by omega) (by omega)

/-- Claim C14: decompressing the store and compressing the resulting matrix leaves the
store as it was at every index, and with it the whole object. -/
theorem decompress_compress_identity (D : ℕ) (f : COnlineLeastSquaresFitter) (g : TMatrix) :
    (∀ a, (COnlineLeastSquaresFitter.CompressATAMatrix D
        (COnlineLeastSquaresFitter.DecompressATAMatrix D f g).1
        (COnlineLeastSquaresFitter.DecompressATAMatrix D f g).2).m_ATACompressed a
      = f.m_ATACompressed a)
    ∧ COnlineLeastSquaresFitter.CompressATAMatrix D
        (COnlineLeastSquaresFitter.DecompressATAMatrix D f g).1
        (COnlineLeastSquaresFitter.DecompressATAMatrix D f g).2 = f := by
  rw [(DecompressATAMatrix_spec D f g).1]
  have hs : (COnlineLeastSquaresFitter.CompressATAMatrix D f
      (COnlineLeastSquaresFitter.DecompressATAMatrix D f g).2).m_ATACompressed
      = f.m_ATACompressed := by
    refine store_ext D _ _ ?_ ?_
    · intro r c hrc hc
      rw [(CompressATAMatrix_spec D f _).2.2 r c hrc hc, (DecompressATAMatrix_spec D f g).2 r c,
        if_pos ⟨by omega, hc⟩, min_eq_left hrc, max_eq_right hrc]
    · intro a ha
      exact (CompressATAMatrix_spec D f _).2.1 a ha
  exact ⟨fun a => congrFun hs a, fitter_ext _ _ (CompressATAMatrix_spec D f _).1 hs⟩

/-- Claim C16: construction from fewer than `D + 1` points produces no fitter, and
construction from `D + 1` or more points always produces one. -/
theorem construct_rejects_underdetermined (D NUM : ℕ) (data : TDataPointList)
    (raw : COnlineLeastSquaresFitter) :
    (NUM < D + 1 ↔ COnlineLeastSquaresFitter.construct D NUM data raw = none)
    ∧ (D + 1 ≤ NUM ↔ ∃ f, COnlineLeastSquaresFitter.construct D NUM data raw = some f) := by
  by_cases h : D + 1 ≤ NUM
  · obtain ⟨f, hf, _⟩ := construct_spec D NUM data raw h
    refine ⟨⟨fun hlt => absurd h (by omega), fun hn => ?_⟩, ⟨fun _ => ⟨f, hf⟩, fun _ => h⟩⟩
    rw [hf] at hn
    exact Option.noConfusion hn
  · have hn : COnlineLeastSquaresFitter.construct D NUM data raw = none := by
      unfold COnlineLeastSquaresFitter.construct
      rw [if_neg h]
    refine ⟨⟨fun _ => hn, fun _ => by omega⟩, ⟨fun h2 => absurd h2 h, fun ⟨f, hf⟩ => ?_⟩⟩
    rw [hn] at hf
    exact Option.noConfusion hf

/-- Claim C18: for every degree `D ≥ 1`, a fitter whose ingested points contain at least
`D + 1` pairwise distinct x-values has `CalculateCoefficients` report success: the
determinant of the decompressed `ATA` is not 0. -/
theorem solvable_with_distinct_abscissae (D : ℕ) (batch more : List (ℚ × ℚ))
    (raw f0 : COnlineLeastSquaresFitter) (c0 : TVector) (hD : 1 ≤ D)
    (hf0 : COnlineLeastSquaresFitter.construct D batch.length (pointList batch) raw = some f0)
    (hdist : D + 1 ≤ (xValues (batch ++ more)).card) :
    (COnlineLeastSquaresFitter.CalculateCoefficients D (addAll D f0 more) c0).2.1 = true
    ∧ Determinant (D + 1)
        (COnlineLeastSquaresFitter.DecompressATAMatrix D (addAll D f0 more) uninitMatrix).2
        ≠ 0 := by
  have hs := summarises_of_construct D batch more raw f0 hf0
  refine ⟨solvable_of_distinct D hD _ _ hs hdist c0, ?_⟩
  rw [Determinant_eq_det_of_le (D + 1) _ (by omega), toMatrix_decompress D _ _ hs]
  exact gramMatrix_det_ne_zero D _ hdist

/-- Solvability at degree 1 with the x-values 1, 2, 3. -/
theorem solvable_with_distinct_abscissae_witness :
    1 ≤ 1
    ∧ 1 + 1 ≤ (xValues ([((1 : ℚ), (2 : ℚ)), (2, 4)] ++ [(3, 7)])).card
    ∧ ∃ f0, COnlineLeastSquaresFitter.construct 1 [((1 : ℚ), (2 : ℚ)), (2, 4)].length
          (pointList [(1, 2), (2, 4)]) ⟨fun _ => 0, fun _ => 0⟩ = some f0
        ∧ (COnlineLeastSquaresFitter.CalculateCoefficients 1 (addAll 1 f0 [(3, 7)])
            (fun _ => 0)).2.1 = true
        ∧ Determinant (1 + 1)
            (COnlineLeastSquaresFitter.DecompressATAMatrix 1 (addAll 1 f0 [(3, 7)])
              uninitMatrix).2 ≠ 0 := by
  obtain ⟨f0, hf0, _⟩ := construct_summarises 1 [((1 : ℚ), (2 : ℚ)), (2, 4)]
    ⟨fun _ => 0, fun _ => 0⟩ (by decide)
  have hx : 1 + 1 ≤ (xValues ([((1 : ℚ), (2 : ℚ)), (2, 4)] ++ [(3, 7)])).card := by
    have e : xValues ([((1 : ℚ), (2 : ℚ)), (2, 4)] ++ [(3, 7)]) = {1, 2, 3} := by
      simp [xValues]
    rw [e]
    decide
  exact ⟨le_refl 1, hx, f0, hf0,
    solvable_with_distinct_abscissae 1 [(1, 2), (2, 4)] [(3, 7)] ⟨fun _ => 0, fun _ => 0⟩ f0
      (fun _ => 0) (le_refl 1) hf0 hx⟩

/-! ## Logged loops -/

/-- A loop that carries a log next to its state runs the plain loop on the state and
appends, pass by pass, what each pass logs. -/
theorem forUpTo_logged {σ α : Type} (n : ℕ) (B : ℕ → σ → σ) (L : ℕ → σ → List α) (s : σ)
    (t : List α) :
    forUpTo n (fun i (st : σ × List α) => (B i st.1, st.2 ++ L i st.1)) (s, t)
      = (forUpTo n B s, t ++ (List.range n).flatMap (fun i => L i (forUpTo i B s))) := by
  induction n with
  | zero => simp [forUpTo]
  | succ n ih =>
    simp only [forUpTo, ih, List.range_succ, List.flatMap_append, List.flatMap_singleton,
      List.append_assoc]

theorem sum_row_lengths (D m : ℕ) :
    ((List.range m).map (fun row => D + 1 - row)).sum = rowStart D m := by
  induction m with
  | zero => rfl
  | succ m ih => simp [List.range_succ, ih, rowStart_succ]

theorem compress_counter (D : ℕ) (ATA : TMatrix) (v : TVector) (row j : ℕ) :
    (forUpTo j (fun j (s : TVector × ℕ) => (setVec s.1 s.2 (ATA row (row + j)), s.2 + 1))
      (forUpTo row (fun row (st : TVector × ℕ) =>
        forUpTo (D + 1 - row) (fun j (st2 : TVector × ℕ) =>
          (setVec st2.1 st2.2 (ATA row (row + j)), st2.2 + 1)) st) (v, 0))).2
      = rowStart D row + j := by
  have h := (compressLoop_spec D ATA v row).1
  generalize forUpTo row (fun row (st : TVector × ℕ) =>
        forUpTo (D + 1 - row) (fun j (st2 : TVector × ℕ) =>
          (setVec st2.1 st2.2 (ATA row (row + j)), st2.2 + 1)) st) (v, 0) = st at h
  obtain ⟨w, c⟩ := st
  simp only at h
  subst h
  rw [storeWrite_inner]

/-- The logged `CompressATAMatrix` computes what `CompressATAMatrix` computes, and its log
lists, row after row and from the diagonal rightward, the store index `rowStart row + j`
next to the matrix position `(row, row + j)`. -/
theorem CompressATAMatrix_logged_spec (D : ℕ) (self : COnlineLeastSquaresFitter)
    (ATA : TMatrix) :
    (CompressATAMatrix_logged D self ATA).1
        = COnlineLeastSquaresFitter.CompressATAMatrix D self ATA
    ∧ (CompressATAMatrix_logged D self ATA).2
        = (List.range (D + 1)).flatMap (fun row =>
            (List.range (D + 1 - row)).flatMap (fun j => [(rowStart D row + j, row, row + j)])) := by
  unfold CompressATAMatrix_logged COnlineLeastSquaresFitter.CompressATAMatrix
  simp only
  rw [codecLoop_rows D (fun row i (st : (TVector × ℕ) × List (ℕ × ℕ × ℕ)) =>
      forUpTo i (fun j (st2 : (TVector × ℕ) × List (ℕ × ℕ × ℕ)) =>
        ((setVec st2.1.1 st2.1.2 (ATA row (row + j)), st2.1.2 + 1),
          st2.2 ++ [(st2.1.2, row, row + j)])) st),
    codecLoop_rows D (fun row i (st : TVector × ℕ) =>
      forUpTo i (fun j (st2 : TVector × ℕ) =>
        (setVec st2.1 st2.2 (ATA row (row + j)), st2.2 + 1)) st)]
  have hinner : ∀ (row : ℕ) (st : (TVector × ℕ) × List (ℕ × ℕ × ℕ)),
      forUpTo (D + 1 - row) (fun j (st2 : (TVector × ℕ) × List (ℕ × ℕ × ℕ)) =>
        ((setVec st2.1.1 st2.1.2 (ATA row (row + j)), st2.1.2 + 1),
          st2.2 ++ [(st2.1.2, row, row + j)])) st
      = (forUpTo (D + 1 - row) (fun j (s : TVector × ℕ) =>
          (setVec s.1 s.2 (ATA row (row + j)), s.2 + 1)) st.1,
         st.2 ++ (List.range (D + 1 - row)).flatMap (fun j =>
            [((forUpTo j (fun j (s : TVector × ℕ) =>
              (setVec s.1 s.2 (ATA row (row + j)), s.2 + 1)) st.1).2, row, row + j)])) := by
    intro row st
    exact forUpTo_logged (D + 1 - row)
      (fun j (s : TVector × ℕ) => (setVec s.1 s.2 (ATA row (row + j)), s.2 + 1))
      (fun j (s : TVector × ℕ) => [(s.2, row, row + j)]) st.1 st.2
  simp only [hinner]
  rw [forUpTo_logged (D + 1)
    (fun row (s : TVector × ℕ) => forUpTo (D + 1 - row) (fun j (s2 : TVector × ℕ) =>
      (setVec s2.1 s2.2 (ATA row (row + j)), s2.2 + 1)) s)
    (fun row (s : TVector × ℕ) => (List.range (D + 1 - row)).flatMap (fun j =>
      [((forUpTo j (fun j (s2 : TVector × ℕ) =>
        (setVec s2.1 s2.2 (ATA row (row + j)), s2.2 + 1)) s).2, row, row + j)]))]
  refine ⟨rfl, ?_⟩
  simp only [List.nil_append, compress_counter]

theorem decompress_counter (D : ℕ) (store : TVector) (ATA0 : TMatrix) (row j : ℕ) :
    (forUpTo j (fun j (s : TMatrix × ℕ) => (setMat s.1 row (row + j) (store s.2), s.2 + 1))
      (forUpTo row (fun row (st : TMatrix × ℕ) =>
        forUpTo (D + 1 - row) (fun j (st2 : TMatrix × ℕ) =>
          (setMat st2.1 row (row + j) (store st2.2), st2.2 + 1)) st) (ATA0, 0))).2
      = rowStart D row + j := by
  have h := (decompressLoop_spec D store ATA0 row).1
  generalize forUpTo row (fun row (st : TMatrix × ℕ) =>
        forUpTo (D + 1 - row) (fun j (st2 : TMatrix × ℕ) =>
          (setMat st2.1 row (row + j) (store st2.2), st2.2 + 1)) st) (ATA0, 0) = st at h
  obtain ⟨w, c⟩ := st
  simp only at h
  subst h
  rw [storeRead_inner]

/-- The logged `DecompressATAMatrix` computes what `DecompressATAMatrix` computes; its first
log lists the store index `rowStart row + j` next to the matrix position `(row, row + j)`,
its second the positions `(j, i)` and `(i, j)` for `j < i ≤ D`. -/
theorem DecompressATAMatrix_logged_spec (D : ℕ) (self : COnlineLeastSquaresFitter)
    (ATA0 : TMatrix) :
    (DecompressATAMatrix_logged D self ATA0).1
        = COnlineLeastSquaresFitter.DecompressATAMatrix D self ATA0
    ∧ (DecompressATAMatrix_logged D self ATA0).2.1
        = (List.range (D + 1)).flatMap (fun row =>
            (List.range (D + 1 - row)).flatMap (fun j => [(rowStart D row + j, row, row + j)]))
    ∧ (DecompressATAMatrix_logged D self ATA0).2.2
        = (List.range D).flatMap (fun k =>
            (List.range (1 + k)).flatMap (fun j => [(j, 1 + k), (1 + k, j)])) := by
  unfold DecompressATAMatrix_logged COnlineLeastSquaresFitter.DecompressATAMatrix
  simp only
  rw [codecLoop_rows D (fun row i (st : (TMatrix × ℕ) × List (ℕ × ℕ × ℕ)) =>
      forUpTo i (fun j (st2 : (TMatrix × ℕ) × List (ℕ × ℕ × ℕ)) =>
        ((setMat st2.1.1 row (row + j) (self.m_ATACompressed st2.1.2), st2.1.2 + 1),
          st2.2 ++ [(st2.1.2, row, row + j)])) st),
    codecLoop_rows D (fun row i (st : TMatrix × ℕ) =>
      forUpTo i (fun j (st2 : TMatrix × ℕ) =>
        (setMat st2.1 row (row + j) (self.m_ATACompressed st2.2), st2.2 + 1)) st)]
  have hinner : ∀ (row : ℕ) (st : (TMatrix × ℕ) × List (ℕ × ℕ × ℕ)),
      forUpTo (D + 1 - row) (fun j (st2 : (TMatrix × ℕ) × List (ℕ × ℕ × ℕ)) =>
        ((setMat st2.1.1 row (row + j) (self.m_ATACompressed st2.1.2), st2.1.2 + 1),
          st2.2 ++ [(st2.1.2, row, row + j)])) st
      = (forUpTo (D + 1 - row) (fun j (s : TMatrix × ℕ) =>
          (setMat s.1 row (row + j) (self.m_ATACompressed s.2), s.2 + 1)) st.1,
         st.2 ++ (List.range (D + 1 - row)).flatMap (fun j =>
            [((forUpTo j (fun j (s : TMatrix × ℕ) =>
              (setMat s.1 row (row + j) (self.m_ATACompressed s.2), s.2 + 1)) st.1).2,
              row, row + j)])) := by
    intro row st
    exact forUpTo_logged (D + 1 - row)
      (fun j (s : TMatrix × ℕ) => (setMat s.1 row (row + j) (self.m_ATACompressed s.2), s.2 + 1))
      (fun j (s : TMatrix × ℕ) => [(s.2, row, row + j)]) st.1 st.2
  have hrefl : ∀ (i : ℕ) (st : TMatrix × List (ℕ × ℕ)),
      forUpTo i (fun j (st2 : TMatrix × List (ℕ × ℕ)) =>
        (setMat st2.1 i j (st2.1 j i), st2.2 ++ [(j, i), (i, j)])) st
      = (forUpTo i (fun j (A : TMatrix) => setMat A i j (A j i)) st.1,
         st.2 ++ (List.range i).flatMap (fun j => [(j, i), (i, j)])) := by
    intro i st
    exact forUpTo_logged i (fun j (A : TMatrix) => setMat A i j (A j i))
      (fun j (_ : TMatrix) => [(j, i), (i, j)]) st.1 st.2
  simp only [hinner, hrefl, forFromTo]
  rw [forUpTo_logged (D + 1)
    (fun row (s : TMatrix × ℕ) => forUpTo (D + 1 - row) (fun j (s2 : TMatrix × ℕ) =>
      (setMat s2.1 row (row + j) (self.m_ATACompressed s2.2), s2.2 + 1)) s)
    (fun row (s : TMatrix × ℕ) => (List.range (D + 1 - row)).flatMap (fun j =>
      [((forUpTo j (fun j (s2 : TMatrix × ℕ) =>
        (setMat s2.1 row (row + j) (self.m_ATACompressed s2.2), s2.2 + 1)) s).2, row, row + j)])),
    forUpTo_logged (D + 1 - 1)
    (fun k (A : TMatrix) => forUpTo (1 + k) (fun j (A2 : TMatrix) =>
      setMat A2 (1 + k) j (A2 j (1 + k))) A)
    (fun k (_ : TMatrix) => (List.range (1 + k)).flatMap (fun j => [(j, 1 + k), (1 + k, j)]))]
  refine ⟨rfl, ?_, ?_⟩
  · simp only [List.nil_append, decompress_counter]
  · simp only [List.nil_append, Nat.add_sub_cancel]

theorem storage_covers_triangle (D : ℕ) :
    D + 1 ≤ ATACompressedStorageSize D ∧ (D + 1) * (D + 2) ≤ 2 * ATACompressedStorageSize D := by
  induction D with
  | zero => decide
  | succ D ih =>
    obtain ⟨h1, h2⟩ := ih
    have h : ATACompressedStorageSize (D + 1) = ATACompressedStorageSize D * 2 + 1 := rfl
    rw [h]
    refine ⟨by omega, ?_⟩
    nlinarith [h1, h2]

theorem rowStart_total_le (D : ℕ) : rowStart D (D + 1) ≤ ATACompressedStorageSize D := by
  have h1 := rowStart_total D
  have h2 := (storage_covers_triangle D).2
  omega

theorem mem_codec_log (D : ℕ) (x : ℕ × ℕ × ℕ) :
    x ∈ (List.range (D + 1)).flatMap (fun row =>
        (List.range (D + 1 - row)).flatMap (fun j => [(rowStart D row + j, row, row + j)]))
      ↔ ∃ row j, row ≤ D ∧ j < D + 1 - row ∧ x = (rowStart D row + j, row, row + j) := by
  simp only [List.mem_flatMap, List.mem_range, List.mem_singleton]
  constructor
  · rintro ⟨row, hrow, j, hj, e⟩
    exact ⟨row, j, by omega, hj, e⟩
  · rintro ⟨row, j, hrow, hj, e⟩
    exact ⟨row, by omega, j, hj, e⟩

theorem length_flatMap_range_singleton {α : Type} (n : ℕ) (f : ℕ → α) :
    ((List.range n).flatMap (fun j => [f j])).length = n := by
  induction n with
  | zero => rfl
  | succ n ih =>
    rw [List.range_succ, List.flatMap_append, List.length_append, ih]
    rfl

theorem length_codec_log (D : ℕ) :
    ((List.range (D + 1)).flatMap (fun row =>
        (List.range (D + 1 - row)).flatMap
          (fun j => [(rowStart D row + j, row, row + j)])) : List (ℕ × ℕ × ℕ)).length
      = (D + 1) * (D + 2) / 2 := by
  rw [← rowStart_total, ← sum_row_lengths, List.length_flatMap]
  congr 1
  refine List.map_congr_left fun row _ => ?_
  exact length_flatMap_range_singleton _ _

/-- Claim C19: for every degree, `CompressATAMatrix` writes and `DecompressATAMatrix` reads
exactly `(D + 1) (D + 2) / 2` store entries, every store index they use is below
`ATACompressedStorageSize D = 2 ^ (D + 1) - 1`, and every matrix index they use is at
most `D`. -/
theorem store_indexing_in_bounds (D : ℕ) (self : COnlineLeastSquaresFitter) (ATA : TMatrix) :
    ATACompressedStorageSize D = 2 ^ (D + 1) - 1
    ∧ (CompressATAMatrix_logged D self ATA).1
        = COnlineLeastSquaresFitter.CompressATAMatrix D self ATA
    ∧ (CompressATAMatrix_logged D self ATA).2.length = (D + 1) * (D + 2) / 2
    ∧ (∀ x, x ∈ (CompressATAMatrix_logged D self ATA).2 →
        x.1 < (D + 1) * (D + 2) / 2 ∧ x.1 < ATACompressedStorageSize D
        ∧ x.2.1 ≤ D ∧ x.2.2 ≤ D)
    ∧ (DecompressATAMatrix_logged D self ATA).1
        = COnlineLeastSquaresFitter.DecompressATAMatrix D self ATA
    ∧ (DecompressATAMatrix_logged D self ATA).2.1.length = (D + 1) * (D + 2) / 2
    ∧ (∀ x, x ∈ (DecompressATAMatrix_logged D self ATA).2.1 →
        x.1 < (D + 1) * (D + 2) / 2 ∧ x.1 < ATACompressedStorageSize D
        ∧ x.2.1 ≤ D ∧ x.2.2 ≤ D)
    ∧ (∀ x, x ∈ (DecompressATAMatrix_logged D self ATA).2.2 → x.1 ≤ D ∧ x.2 ≤ D) := by
  have hsize : ATACompressedStorageSize D = 2 ^ (D + 1) - 1 := by
    have := ATACompressedStorageSize_closed D
    omega
  have hbound : ∀ x : ℕ × ℕ × ℕ,
      x ∈ (List.range (D + 1)).flatMap (fun row =>
        (List.range (D + 1 - row)).flatMap (fun j => [(rowStart D row + j, row, row + j)])) →
      x.1 < (D + 1) * (D + 2) / 2 ∧ x.1 < ATACompressedStorageSize D
        ∧ x.2.1 ≤ D ∧ x.2.2 ≤ D := by
    intro x hx
    obtain ⟨row, j, hrow, hj, rfl⟩ := (mem_codec_log D x).mp hx
    have h1 := rowStart_add_lt D row (row + j) (by omega) (by omega)
    have h2 := rowStart_total_le D
    have h3 := rowStart_total D
    have h4 : row + j - row = j := by omega
    rw [h4] at h1
    simp only
    omega
  obtain ⟨c1, c2⟩ := CompressATAMatrix_logged_spec D self ATA
  obtain ⟨d1, d2, d3⟩ := DecompressATAMatrix_logged_spec D self ATA
  refine ⟨hsize, c1, ?_, ?_, d1, ?_, ?_, ?_⟩
  · rw [c2]; exact length_codec_log D
  · rw [c2]; exact hbound
  · rw [d2]; exact length_codec_log D
  · rw [d2]; exact hbound
  · rw [d3]
    intro x hx
    simp only [List.mem_flatMap, List.mem_range, List.mem_cons, List.mem_singleton,
      List.not_mem_nil, or_false] at hx
    obtain ⟨k, hk, j, hj, e | e⟩ := hx <;> (subst e; simp only; omega)

/-- Claim C17: after `CompressATAMatrix`, the store holds `ATA[i][j]`, for `i ≤ j ≤ D`, at
index `i * (D + 1) - i * (i - 1) / 2 + (j - i)`; that write is in the log, no logged read
is below the diagonal, and the result does not depend on the entries below it. -/
theorem packed_layout (D : ℕ) (self : COnlineLeastSquaresFitter) (ATA : TMatrix) (i j : ℕ)
    (hij : i ≤ j) (hj : j ≤ D) :
    (COnlineLeastSquaresFitter.CompressATAMatrix D self ATA).m_ATACompressed
        (i * (D + 1) - i * (i - 1) / 2 + (j - i)) = ATA i j
    ∧ (i * (D + 1) - i * (i - 1) / 2 + (j - i), i, j) ∈ (CompressATAMatrix_logged D self ATA).2
    ∧ (∀ x, x ∈ (CompressATAMatrix_logged D self ATA).2 → x.2.1 ≤ x.2.2)
    ∧ ∀ ATA2 : TMatrix, (∀ r c, r ≤ c → c ≤ D → ATA2 r c = ATA r c) →
        COnlineLeastSquaresFitter.CompressATAMatrix D self ATA2
          = COnlineLeastSquaresFitter.CompressATAMatrix D self ATA := by
  have hf := rowStart_formula D i (by omega)
  refine ⟨?_, ?_, ?_, ?_⟩
  · rw [← hf]
    exact (CompressATAMatrix_spec D self ATA).2.2 i j hij hj
  · rw [← hf, (CompressATAMatrix_logged_spec D self ATA).2, mem_codec_log]
    exact ⟨i, j - i, by omega, by omega, by
      have e : i + (j - i) = j := by omega
      rw [e]⟩
  · rw [(CompressATAMatrix_logged_spec D self ATA).2]
    intro x hx
    obtain ⟨row, k, _, _, rfl⟩ := (mem_codec_log D x).mp hx
    exact Nat.le_add_right row k
  · intro ATA2 h
    refine fitter_ext _ _ ?_ (store_ext D _ _ ?_ ?_)
    · rw [(CompressATAMatrix_spec D self ATA2).1, (CompressATAMatrix_spec D self ATA).1]
    · intro r c hrc hc
      rw [(CompressATAMatrix_spec D self ATA2).2.2 r c hrc hc,
        (CompressATAMatrix_spec D self ATA).2.2 r c hrc hc, h r c hrc hc]
    · intro a ha
      rw [(CompressATAMatrix_spec D self ATA2).2.1 a ha,
        (CompressATAMatrix_spec D self ATA).2.1 a ha]

/-- The packed place of entry `(1, 2)` at degree 2 is index 4. -/
theorem packed_layout_witness :
    1 ≤ 2 ∧ 2 ≤ 2
    ∧ (COnlineLeastSquaresFitter.CompressATAMatrix 2 ⟨fun _ => 0, fun _ => 0⟩
        (fun i j => (i : ℚ) + 10 * j)).m_ATACompressed
          (1 * (2 + 1) - 1 * (1 - 1) / 2 + (2 - 1)) = (fun i j : ℕ => (i : ℚ) + 10 * j) 1 2
    ∧ (1 * (2 + 1) - 1 * (1 - 1) / 2 + (2 - 1), 1, 2)
        ∈ (CompressATAMatrix_logged 2 ⟨fun _ => 0, fun _ => 0⟩ (fun i j => (i : ℚ) + 10 * j)).2
    ∧ (∀ x, x ∈ (CompressATAMatrix_logged 2 ⟨fun _ => 0, fun _ => 0⟩
        (fun i j => (i : ℚ) + 10 * j)).2 → x.2.1 ≤ x.2.2)
    ∧ ∀ ATA2 : TMatrix, (∀ r c, r ≤ c → c ≤ 2 → ATA2 r c = (fun i j : ℕ => (i : ℚ) + 10 * j) r c) →
        COnlineLeastSquaresFitter.CompressATAMatrix 2 ⟨fun _ => 0, fun _ => 0⟩ ATA2
          = COnlineLeastSquaresFitter.CompressATAMatrix 2 ⟨fun _ => 0, fun _ => 0⟩
              (fun i j => (i : ℚ) + 10 * j) :=
  ⟨by decide, by decide,
    packed_layout 2 ⟨fun _ => 0, fun _ => 0⟩ (fun i j => (i : ℚ) + 10 * j) 1 2 (by decide)
      (by decide)⟩

/-- Claim C20: two fitter states with equal `m_ATY` whose stores agree on the first
`(D + 1) (D + 2) / 2` entries decompress to the same matrix and get the same success flag
and coefficients from `CalculateCoefficients`; `AddDataPoint` never changes a store entry
at an index from `(D + 1) (D + 2) / 2` on, and construction leaves those entries as the
storage held them. -/
theorem unused_tail_irrelevant (D : ℕ) (f1 f2 : COnlineLeastSquaresFitter) (g : TMatrix)
    (c0 : TVector) (hY : f1.m_ATY = f2.m_ATY)
    (hS : ∀ a, a < (D + 1) * (D + 2) / 2 → f1.m_ATACompressed a = f2.m_ATACompressed a) :
    (COnlineLeastSquaresFitter.DecompressATAMatrix D f1 g).2
        = (COnlineLeastSquaresFitter.DecompressATAMatrix D f2 g).2
    ∧ (COnlineLeastSquaresFitter.CalculateCoefficients D f1 c0).2
        = (COnlineLeastSquaresFitter.CalculateCoefficients D f2 c0).2
    ∧ (∀ (f : COnlineLeastSquaresFitter) (pt : TDataPoint) (a : ℕ),
        (D + 1) * (D + 2) / 2 ≤ a →
          (COnlineLeastSquaresFitter.AddDataPoint D f pt).m_ATACompressed a
            = f.m_ATACompressed a)
    ∧ ∀ (NUM : ℕ) (data : TDataPointList) (raw f : COnlineLeastSquaresFitter) (a : ℕ),
        COnlineLeastSquaresFitter.construct D NUM data raw = some f →
        (D + 1) * (D + 2) / 2 ≤ a → f.m_ATACompressed a = raw.m_ATACompressed a := by
  have hdec : ∀ g0 : TMatrix, (COnlineLeastSquaresFitter.DecompressATAMatrix D f1 g0).2
      = (COnlineLeastSquaresFitter.DecompressATAMatrix D f2 g0).2 := by
    intro g0
    funext a b
    rw [(DecompressATAMatrix_spec D f1 g0).2 a b, (DecompressATAMatrix_spec D f2 g0).2 a b]
    by_cases h : a ≤ D ∧ b ≤ D
    · rw [if_pos h, if_pos h]
      refine hS _ ?_
      rw [← rowStart_total]
      exact rowStart_add_lt D (min a b) (max a b)
        (le_trans (min_le_left a b) (le_max_left a b)) (max_le h.1 h.2)
    · rw [if_neg h, if_neg h]
  refine ⟨hdec g, ?_, ?_, ?_⟩
  · unfold COnlineLeastSquaresFitter.CalculateCoefficients
    simp only [(DecompressATAMatrix_spec D f1 uninitMatrix).1,
      (DecompressATAMatrix_spec D f2 uninitMatrix).1, hdec uninitMatrix, hY]
    split <;> rfl
  · intro f pt a ha
    rw [← rowStart_total] at ha
    exact (AddDataPoint_spec D f pt).2.2.1 a ha
  · intro NUM data raw f a hf ha
    rw [← rowStart_total] at ha
    have hN : D + 1 ≤ NUM := by
      by_contra hlt
      unfold COnlineLeastSquaresFitter.construct at hf
      rw [if_neg hlt] at hf
      exact Option.noConfusion hf
    obtain ⟨f2, hf2, _, _, h3, _⟩ := construct_spec D NUM data raw hN
    have e : f2 = f := Option.some.inj (hf2.symm.trans hf)
    subst e
    exact h3 a ha

/-- Two degree-2 states that differ only from store index 6 on. -/
theorem unused_tail_irrelevant_witness :
    (⟨fun _ => 0, fun a => if a < 6 then (a : ℚ) else 0⟩ : COnlineLeastSquaresFitter).m_ATY
      = (⟨fun _ => 0, fun a => if a < 6 then (a : ℚ) else 99⟩ : COnlineLeastSquaresFitter).m_ATY
    ∧ (∀ a, a < (2 + 1) * (2 + 2) / 2 →
        (⟨fun _ => 0, fun a => if a < 6 then (a : ℚ) else 0⟩ :
            COnlineLeastSquaresFitter).m_ATACompressed a
          = (⟨fun _ => 0, fun a => if a < 6 then (a : ℚ) else 99⟩ :
            COnlineLeastSquaresFitter).m_ATACompressed a)
    ∧ (COnlineLeastSquaresFitter.DecompressATAMatrix 2
          ⟨fun _ => 0, fun a => if a < 6 then (a : ℚ) else 0⟩ uninitMatrix).2
        = (COnlineLeastSquaresFitter.DecompressATAMatrix 2
          ⟨fun _ => 0, fun a => if a < 6 then (a : ℚ) else 99⟩ uninitMatrix).2
    ∧ (COnlineLeastSquaresFitter.CalculateCoefficients 2
          ⟨fun _ => 0, fun a => if a < 6 then (a : ℚ) else 0⟩ (fun _ => 0)).2
        = (COnlineLeastSquaresFitter.CalculateCoefficients 2
          ⟨fun _ => 0, fun a => if a < 6 then (a : ℚ) else 99⟩ (fun _ => 0)).2
    ∧ (∀ (f : COnlineLeastSquaresFitter) (pt : TDataPoint) (a : ℕ),
        (2 + 1) * (2 + 2) / 2 ≤ a →
          (COnlineLeastSquaresFitter.AddDataPoint 2 f pt).m_ATACompressed a
            = f.m_ATACompressed a)
    ∧ ∀ (NUM : ℕ) (data : TDataPointList) (raw f : COnlineLeastSquaresFitter) (a : ℕ),
        COnlineLeastSquaresFitter.construct 2 NUM data raw = some f →
        (2 + 1) * (2 + 2) / 2 ≤ a → f.m_ATACompressed a = raw.m_ATACompressed a := by
  have hS : ∀ a, a < (2 + 1) * (2 + 2) / 2 →
      (⟨fun _ => 0, fun a => if a < 6 then (a : ℚ) else 0⟩ :
          COnlineLeastSquaresFitter).m_ATACompressed a
        = (⟨fun _ => 0, fun a => if a < 6 then (a : ℚ) else 99⟩ :
          COnlineLeastSquaresFitter).m_ATACompressed a := by
    intro a ha
    have h6 : a < 6 := ha
    simp only [h6, if_true]
  exact ⟨rfl, hS, unused_tail_irrelevant 2 _ _ uninitMatrix (fun _ => 0) rfl hS⟩

/-! ## The writes of `MinorMatrix` -/

theorem minor_logged_inner (n dI eJ i : ℕ) (inp M : TMatrix) (t : List (ℕ × ℕ × ℕ × ℕ)) :
    forUpTo n (fun j (st2 : (TMatrix × ℕ) × List (ℕ × ℕ × ℕ × ℕ)) =>
        if j ≠ eJ then
          ((setMat st2.1.1 dI st2.1.2 (inp i j), st2.1.2 + 1), st2.2 ++ [(dI, st2.1.2, i, j)])
        else st2) ((M, 0), t)
      = (forUpTo n (fun j (s : TMatrix × ℕ) =>
            if j ≠ eJ then (setMat s.1 dI s.2 (inp i j), s.2 + 1) else s) (M, 0),
         t ++ (List.range n).flatMap (fun j =>
            if j ≠ eJ then [(dI, if eJ < j then j - 1 else j, i, j)] else [])) := by
  have hbody : (fun j (st2 : (TMatrix × ℕ) × List (ℕ × ℕ × ℕ × ℕ)) =>
        if j ≠ eJ then
          ((setMat st2.1.1 dI st2.1.2 (inp i j), st2.1.2 + 1), st2.2 ++ [(dI, st2.1.2, i, j)])
        else st2)
      = fun j (st2 : (TMatrix × ℕ) × List (ℕ × ℕ × ℕ × ℕ)) =>
        ((fun j (s : TMatrix × ℕ) =>
            if j ≠ eJ then (setMat s.1 dI s.2 (inp i j), s.2 + 1) else s) j st2.1,
          st2.2 ++ (fun j (s : TMatrix × ℕ) =>
            if j ≠ eJ then [(dI, s.2, i, j)] else []) j st2.1) := by
    funext j st2
    by_cases h : j = eJ
    · simp [h]
    · simp [h]
  rw [hbody, forUpTo_logged n
    (fun j (s : TMatrix × ℕ) => if j ≠ eJ then (setMat s.1 dI s.2 (inp i j), s.2 + 1) else s)
    (fun j (s : TMatrix × ℕ) => if j ≠ eJ then [(dI, s.2, i, j)] else [])]
  simp only [minor_inner]

theorem minor_logged_outer (N eI eJ : ℕ) (inp out : TMatrix) :
    forUpTo N (fun i (st : (TMatrix × ℕ) × List (ℕ × ℕ × ℕ × ℕ)) =>
      if i ≠ eI then
        let inner := forUpTo N (fun j (st2 : (TMatrix × ℕ) × List (ℕ × ℕ × ℕ × ℕ)) =>
          if j ≠ eJ then
            ((setMat st2.1.1 st.1.2 st2.1.2 (inp i j), st2.1.2 + 1),
              st2.2 ++ [(st.1.2, st2.1.2, i, j)])
          else st2) ((st.1.1, 0), st.2)
        ((inner.1.1, st.1.2 + 1), inner.2)
      else st) ((out, 0), [])
      = (forUpTo N (fun i (st : TMatrix × ℕ) =>
          if i ≠ eI then
            ((forUpTo N (fun j (st2 : TMatrix × ℕ) =>
              if j ≠ eJ then
                (setMat st2.1 st.2 st2.2 (inp i j), st2.2 + 1)
              else st2) (st.1, 0)).1, st.2 + 1)
          else st) (out, 0),
         (List.range N).flatMap (fun i =>
            if i ≠ eI then
              (List.range N).flatMap (fun j =>
                if j ≠ eJ then
                  [(if eI < i then i - 1 else i, if eJ < j then j - 1 else j, i, j)]
                else [])
            else [])) := by
  have hbody : (fun i (st : (TMatrix × ℕ) × List (ℕ × ℕ × ℕ × ℕ)) =>
      if i ≠ eI then
        let inner := forUpTo N (fun j (st2 : (TMatrix × ℕ) × List (ℕ × ℕ × ℕ × ℕ)) =>
          if j ≠ eJ then
            ((setMat st2.1.1 st.1.2 st2.1.2 (inp i j), st2.1.2 + 1),
              st2.2 ++ [(st.1.2, st2.1.2, i, j)])
          else st2) ((st.1.1, 0), st.2)
        ((inner.1.1, st.1.2 + 1), inner.2)
      else st)
      = fun i (st : (TMatrix × ℕ) × List (ℕ × ℕ × ℕ × ℕ)) =>
        ((fun i (s : TMatrix × ℕ) =>
            if i ≠ eI then
              ((forUpTo N (fun j (st2 : TMatrix × ℕ) =>
                if j ≠ eJ then
                  (setMat st2.1 s.2 st2.2 (inp i j), st2.2 + 1)
                else st2) (s.1, 0)).1, s.2 + 1)
            else s) i st.1,
          st.2 ++ (fun i (s : TMatrix × ℕ) =>
            if i ≠ eI then
              (List.range N).flatMap (fun j =>
                if j ≠ eJ then [(s.2, if eJ < j then j - 1 else j, i, j)] else [])
            else []) i st.1) := by
    funext i st
    by_cases h : i = eI
    · simp [h]
    · simp only [ne_eq, h, not_false_eq_true, if_true, minor_logged_inner]
  rw [hbody, forUpTo_logged N
    (fun i (s : TMatrix × ℕ) =>
      if i ≠ eI then
        ((forUpTo N (fun j (st2 : TMatrix × ℕ) =>
          if j ≠ eJ then
            (setMat st2.1 s.2 st2.2 (inp i j), st2.2 + 1)
          else st2) (s.1, 0)).1, s.2 + 1)
      else s)
    (fun i (s : TMatrix × ℕ) =>
      if i ≠ eI then
        (List.range N).flatMap (fun j =>
          if j ≠ eJ then [(s.2, if eJ < j then j - 1 else j, i, j)] else [])
      else [])]
  simp only [minor_outer, List.nil_append]

/-- The logged `MinorMatrix` computes what `MinorMatrix` computes, and its log lists, for
every row `i` but `excludeI` and every column `j` but `excludeJ`, in order, the position
written next to the position read. -/
theorem MinorMatrix_logged_spec (N : ℕ) (inp out : TMatrix) (eI eJ : ℕ) :
    (MinorMatrix_logged N inp out eI eJ).1 = MinorMatrix N inp out eI eJ
    ∧ (MinorMatrix_logged N inp out eI eJ).2
        = (List.range N).flatMap (fun i =>
            if i ≠ eI then
              (List.range N).flatMap (fun j =>
                if j ≠ eJ then
                  [(if eI < i then i - 1 else i, if eJ < j then j - 1 else j, i, j)]
                else [])
            else []) := by
  unfold MinorMatrix_logged MinorMatrix
  simp only
  rw [minor_logged_outer]
  exact ⟨rfl, rfl⟩

theorem length_flatMap_skip {α : Type} (n e c : ℕ) (F : ℕ → List α)
    (hF : ∀ i, (F i).length = c) :
    ((List.range n).flatMap (fun i => if i ≠ e then F i else [])).length
      = (if e < n then n - 1 else n) * c := by
  induction n with
  | zero => simp
  | succ n ih =>
    rw [List.range_succ, List.flatMap_append, List.length_append, ih, List.flatMap_singleton]
    rcases Nat.lt_trichotomy n e with h | h | h
    · have e1 : ¬ e < n := by omega
      have e2 : ¬ e < n + 1 := by omega
      have e3 : n ≠ e := by omega
      simp only [e1, e2, e3, if_false, ne_eq, not_false_eq_true, if_true, hF]
      ring
    · subst h
      simp
    · have e2 : e < n + 1 := by omega
      have e3 : n ≠ e := by omega
      simp only [h, e2, e3, if_true, ne_eq, not_false_eq_true, hF, Nat.add_sub_cancel]
      obtain ⟨m, rfl⟩ : ∃ m, n = m + 1 := ⟨n - 1, by omega⟩
      rw [Nat.add_sub_cancel]
      ring

theorem mem_minor_log (N eI eJ : ℕ) (hI : eI < N) (hJ : eJ < N) (a b i j : ℕ) :
    (a, b, i, j) ∈ (List.range N).flatMap (fun i =>
        if i ≠ eI then
          (List.range N).flatMap (fun j =>
            if j ≠ eJ then
              [(if eI < i then i - 1 else i, if eJ < j then j - 1 else j, i, j)]
            else [])
        else [])
      ↔ a < N - 1 ∧ b < N - 1 ∧ i = (if a < eI then a else a + 1)
          ∧ j = (if b < eJ then b else b + 1) := by
  simp only [List.mem_flatMap, List.mem_range]
  constructor
  · rintro ⟨i2, hi2, h⟩
    by_cases hne : i2 = eI
    · simp [hne] at h
    · rw [if_pos hne] at h
      simp only [List.mem_flatMap, List.mem_range] at h
      obtain ⟨j2, hj2, h2⟩ := h
      by_cases hne2 : j2 = eJ
      · simp [hne2] at h2
      · rw [if_pos hne2] at h2
        simp only [List.mem_singleton, Prod.mk.injEq] at h2
        obtain ⟨ha, hb, hi, hj⟩ := h2
        subst hi
        subst hj
        subst ha
        subst hb
        refine ⟨?_, ?_, ?_, ?_⟩
        · split_ifs <;> omega
        · split_ifs <;> omega
        · split_ifs <;> omega
        · split_ifs <;> omega
  · rintro ⟨ha, hb, hi, hj⟩
    have hi1 : i < N := by rw [hi]; split_ifs <;> omega
    have hi2 : i ≠ eI := by rw [hi]; split_ifs <;> omega
    have hj1 : j < N := by rw [hj]; split_ifs <;> omega
    have hj2 : j ≠ eJ := by rw [hj]; split_ifs <;> omega
    refine ⟨i, hi1, ?_⟩
    rw [if_pos hi2]
    simp only [List.mem_flatMap, List.mem_range]
    refine ⟨j, hj1, ?_⟩
    rw [if_pos hj2]
    simp only [List.mem_singleton, Prod.mk.injEq, and_true]
    refine ⟨?_, ?_⟩
    · rw [hi]; split_ifs <;> omega
    · rw [hj]; split_ifs <;> omega

/-- Claim C15: for every `N` (in particular `N ≥ 2`) and every `excludeI, excludeJ < N`,
`MinorMatrix` writes exactly the positions of the `(N - 1)` by `(N - 1)` output, each once,
with `out[a][b] = M[a'][b']` where `a' = a` if `a < excludeI`, else `a + 1`, and likewise
for `b'`; nothing outside the output is written. -/
theorem MinorMatrix_deletes_row_and_column (N : ℕ) (M out : TMatrix) (excludeI excludeJ : ℕ)
    (hI : excludeI < N) (hJ : excludeJ < N) :
    (MinorMatrix_logged N M out excludeI excludeJ).1 = MinorMatrix N M out excludeI excludeJ
    ∧ (∀ a b i j, (a, b, i, j) ∈ (MinorMatrix_logged N M out excludeI excludeJ).2 ↔
        a < N - 1 ∧ b < N - 1 ∧ i = (if a < excludeI then a else a + 1)
          ∧ j = (if b < excludeJ then b else b + 1))
    ∧ (MinorMatrix_logged N M out excludeI excludeJ).2.length = (N - 1) * (N - 1)
    ∧ (∀ a b, a < N - 1 → b < N - 1 →
        MinorMatrix N M out excludeI excludeJ a b
          = M (if a < excludeI then a else a + 1) (if b < excludeJ then b else b + 1))
    ∧ (∀ a b, ¬ (a < N - 1 ∧ b < N - 1) →
        MinorMatrix N M out excludeI excludeJ a b = out a b) := by
  obtain ⟨l1, l2⟩ := MinorMatrix_logged_spec N M out excludeI excludeJ
  refine ⟨l1, ?_, ?_, ?_, ?_⟩
  · intro a b i j
    rw [l2]
    exact mem_minor_log N excludeI excludeJ hI hJ a b i j
  · rw [l2, length_flatMap_skip N excludeI (N - 1) _ (fun i => by
      have h := length_flatMap_skip N excludeJ 1
        (fun j => [(if excludeI < i then i - 1 else i,
          if excludeJ < j then j - 1 else j, i, j)]) (fun _ => rfl)
      rw [h, if_pos hJ, mul_one]), if_pos hI]
  · intro a b ha hb
    rw [MinorMatrix_apply N M out excludeI excludeJ hI hJ a b, if_pos ⟨ha, hb⟩]
  · intro a b hab
    rw [MinorMatrix_apply N M out excludeI excludeJ hI hJ a b, if_neg hab]

/-- The minor of a 3 by 3 matrix that leaves out row 1 and column 0. -/
theorem MinorMatrix_deletes_row_and_column_witness :
    2 ≤ 3 ∧ 1 < 3 ∧ 0 < 3
    ∧ (MinorMatrix_logged 3 (fun i j => (i : ℚ) + 10 * j) uninitMatrix 1 0).1
        = MinorMatrix 3 (fun i j => (i : ℚ) + 10 * j) uninitMatrix 1 0
    ∧ (∀ a b i j,
        (a, b, i, j) ∈ (MinorMatrix_logged 3 (fun i j => (i : ℚ) + 10 * j) uninitMatrix 1 0).2 ↔
        a < 3 - 1 ∧ b < 3 - 1 ∧ i = (if a < 1 then a else a + 1)
          ∧ j = (if b < 0 then b else b + 1))
    ∧ (MinorMatrix_logged 3 (fun i j => (i : ℚ) + 10 * j) uninitMatrix 1 0).2.length
        = (3 - 1) * (3 - 1)
    ∧ (∀ a b, a < 3 - 1 → b < 3 - 1 →
        MinorMatrix 3 (fun i j => (i : ℚ) + 10 * j) uninitMatrix 1 0 a b
          = (fun i j : ℕ => (i : ℚ) + 10 * j) (if a < 1 then a else a + 1)
              (if b < 0 then b else b + 1))
    ∧ (∀ a b, ¬ (a < 3 - 1 ∧ b < 3 - 1) →
        MinorMatrix 3 (fun i j => (i : ℚ) + 10 * j) uninitMatrix 1 0 a b = uninitMatrix a b) :=
  ⟨by decide, by decide, by decide,
    MinorMatrix_deletes_row_and_column 3 (fun i j => (i : ℚ) + 10 * j) uninitMatrix 1 0
      (by decide) (by decide)⟩

end OnlineLeastSquaresFitting
